import Mathlib

/-!
JobDispatcher: the job queue, the dispatcher and the executor of
`JobDispatcher.c`.

A shallow embedding of the doubly-linked job list of `src/JobDispatcher.c`,
of one iteration of its dispatcher loop, of the `-` branch of `main`, of
`execute` and `prepareCmdParam`, and of the program as a sequence of atomic
steps (submit, cancel, dispatch, end of an executor, clock tick).

Modelling conventions.

* A pointer is an `Option Nat`: `none` is `NULL`, `some a` the address `a`.
* The heap maps an address to the `struct JOB` stored there, if one is
  allocated.  Reading or writing through `NULL` is `Fault.nullDeref`, through
  an address that holds no job `Fault.dangling`, outside the bounds of an
  array `Fault.outOfBounds`.
* The `command` array of a job is the list of the parameters `createJob`
  scanned into it.  The model of `createJob` is meant for input within the
  capacity of that array (at most 5 parameters of at most 24 bytes each);
  beyond it the C code writes outside the array, which depends on the memory
  layout and is not modelled.
* Output is the list of the strings printed, in order; a function that prints
  gives its output also when it faults.
* The single `struct LIST` of the program is a field of the machine state.
* `long` values and the job counter `numOfJobs` are exact integers (clock
  values are far from `2^63`, and `2^31` jobs are never queued); the
  conversion of a `long` sum to `int` in `insertOrdered` is reduction modulo
  `2^32` into the signed range (`toInt`), which is what gcc does on the
  program's platform.
* The `while` loop of `insertOrdered` takes fuel: the number of times its
  condition may be evaluated; running out is `Fault.fuel`.
-/

namespace JobDispatcher

/-- A C pointer to a job: `none` is `NULL`. -/
abbrev Ptr := Option Nat

/-- The record `struct JOB`. -/
structure Job where
  command : List String
  submissionTime : Int
  numOfParameters : Int
  startTime : Int
  prev : Ptr
  next : Ptr
deriving DecidableEq

/-- The record `struct LIST`. -/
structure LIST where
  numOfJobs : Int
  firstJob : Ptr
  lastJob : Ptr
deriving DecidableEq

/-- The allocated jobs, by address. -/
abbrev Heap := Nat → Option Job

/-- The machine state the queue functions work on: the job heap and the list
header that `listPtr` points to. -/
structure Mem where
  heap : Heap
  list : LIST

/-- The ways a run of the C code leaves defined behaviour (or the model its
fuel). -/
inductive Fault where
  | nullDeref
  | dangling
  | fuel
  | badAlloc
  | outOfBounds
deriving DecidableEq

/-- Conversion of a `long` to `int`: the value modulo `2^32`, in the signed
32-bit range. -/
def toInt (x : Int) : Int := (x + 2147483648) % 4294967296 - 2147483648

/-- The exact due time `submissionTime + startTime`, as `dispatch` computes it
in `long` arithmetic. -/
def dueTime (j : Job) : Int := j.submissionTime + j.startTime

/-- The value `insertOrdered` stores in its `int` locals `tempValue` and
`insertValue`. -/
def intValue (j : Job) : Int := toInt (j.submissionTime + j.startTime)

/-- Reads the job a pointer points to. -/
def deref (h : Heap) : Ptr → Except Fault Job
  | none => .error .nullDeref
  | some a =>
    match h a with
    | none => .error .dangling
    | some j => .ok j

/-- The heap with the job at address `a` replaced. -/
def store (h : Heap) (a : Nat) (j : Job) : Heap :=
  fun b => if b = a then some j else h b

/-- The assignment `p->next = v`. -/
def setNext (h : Heap) (p : Ptr) (v : Ptr) : Except Fault Heap :=
  match p with
  | none => .error .nullDeref
  | some a =>
    match h a with
    | none => .error .dangling
    | some j => .ok (store h a { j with next := v })

/-- The assignment `p->prev = v`. -/
def setPrev (h : Heap) (p : Ptr) (v : Ptr) : Except Fault Heap :=
  match p with
  | none => .error .nullDeref
  | some a =>
    match h a with
    | none => .error .dangling
    | some j => .ok (store h a { j with prev := v })

/-- The function `createList`: an empty list, no job allocated yet. -/
def createList : Mem :=
  { heap := fun _ => none, list := { numOfJobs := 0, firstJob := none, lastJob := none } }

/-- What `createJob` scans from the input: the parameter count, the parameters
and the start time. -/
structure Submission where
  numOfParameters : Int
  command : List String
  startTime : Int
deriving DecidableEq

/-- The function `createJob`: the job built from the scanned input, stamped
with the clock value `now`; both links are `NULL`. -/
def createJob (inp : Submission) (now : Int) : Job :=
  { command := inp.command, submissionTime := now, numOfParameters := inp.numOfParameters,
    startTime := inp.startTime, prev := none, next := none }

/-- The function `insertOnly`. -/
def insertOnly (s : Mem) (jobPtr : Ptr) : Except Fault Mem :=
  .ok { s with list := { s.list with firstJob := jobPtr, lastJob := jobPtr } }

/-- The function `insertFirst`. -/
def insertFirst (s : Mem) (jobPtr : Ptr) : Except Fault Mem := do
  let h1 ← setNext s.heap jobPtr s.list.firstJob
  let h2 ← setPrev h1 s.list.firstJob jobPtr
  pure { heap := h2, list := { s.list with firstJob := jobPtr } }

/-- The function `insertBetween`. -/
def insertBetween (s : Mem) (jobPtr : Ptr) (ahead : Ptr) : Except Fault Mem := do
  let h1 ← setNext s.heap jobPtr ahead
  let a1 ← deref h1 ahead
  let h2 ← setPrev h1 jobPtr a1.prev
  let a2 ← deref h2 ahead
  let h3 ← setNext h2 a2.prev jobPtr
  let h4 ← setPrev h3 ahead jobPtr
  pure { heap := h4, list := s.list }

/-- The function `insertLast`. -/
def insertLast (s : Mem) (jobPtr : Ptr) : Except Fault Mem := do
  let h1 ← setNext s.heap s.list.lastJob jobPtr
  let h2 ← setPrev h1 jobPtr s.list.lastJob
  pure { heap := h2, list := { s.list with lastJob := jobPtr } }

/-- The `while` loop of `insertOrdered`: advances `temp` while
`insertValue > tempValue && temp->next != NULL`; returns the final `temp` and
`tempValue`.  The fuel bounds the evaluations of the loop condition. -/
def scan (h : Heap) (insertValue : Int) : Nat → Ptr → Int → Except Fault (Ptr × Int)
  | 0, _, _ => .error .fuel
  | fuel + 1, temp, tempValue =>
    if insertValue > tempValue then do
      let t ← deref h temp
      if t.next ≠ none then do
        let t1 ← deref h t.next
        scan h insertValue fuel t.next (intValue t1)
      else pure (temp, tempValue)
    else pure (temp, tempValue)

/-- The function `insertOrdered`. -/
def insertOrdered (fuel : Nat) (s : Mem) (jobPtr : Ptr) : Except Fault Mem := do
  let s1 ←
    if s.list.numOfJobs = 0 then insertOnly s jobPtr
    else do
      let temp := s.list.firstJob
      let t ← deref s.heap temp
      let tempValue := intValue t
      let j ← deref s.heap jobPtr
      let insertValue := intValue j
      if insertValue < tempValue then insertFirst s jobPtr
      else do
        let (temp, tempValue) ← scan s.heap insertValue fuel temp tempValue
        if insertValue ≤ tempValue then insertBetween s jobPtr temp
        else insertLast s jobPtr
  pure { s1 with list := { s1.list with numOfJobs := s1.list.numOfJobs + 1 } }

/-- The function `deleteFirstJob`: the new state and the pointer returned. -/
def deleteFirstJob (s : Mem) : Except Fault (Mem × Ptr) :=
  if s.list.numOfJobs = 0 then .ok (s, none)
  else do
    let deleted := s.list.firstJob
    let d ← deref s.heap s.list.firstJob
    let first := d.next
    let h1 ← if first ≠ none then setPrev s.heap first none else pure s.heap
    pure ({ heap := h1, list := { s.list with firstJob := first,
                                              numOfJobs := s.list.numOfJobs - 1 } }, deleted)

/-- The function `appendJob`. -/
def appendJob (s : Mem) (jobPtr : Ptr) : Except Fault Mem := do
  let s1 ← if s.list.numOfJobs = 0 then insertOnly s jobPtr else insertLast s jobPtr
  pure { s1 with list := { s1.list with numOfJobs := s1.list.numOfJobs + 1 } }

/-- The loop of `printForward`: `n` iterations from `temp`, each reading the
job at `temp` (for `printJobInfo`) and moving to its `next`; returns the
addresses visited. -/
def forwardFrom (h : Heap) : Nat → Ptr → Except Fault (List Nat)
  | 0, _ => .ok []
  | n + 1, temp =>
    match temp with
    | none => .error .nullDeref
    | some a =>
      match h a with
      | none => .error .dangling
      | some j => (forwardFrom h n j.next).map (fun l => a :: l)

/-- The function `printForward`: the addresses of the jobs it prints, in
order. -/
def printForward (s : Mem) : Except Fault (List Nat) :=
  forwardFrom s.heap s.list.numOfJobs.toNat s.list.firstJob

/-- The loop of `printBackward`. -/
def backwardFrom (h : Heap) : Nat → Ptr → Except Fault (List Nat)
  | 0, _ => .ok []
  | n + 1, temp =>
    match temp with
    | none => .error .nullDeref
    | some a =>
      match h a with
      | none => .error .dangling
      | some j => (backwardFrom h n j.prev).map (fun l => a :: l)

/-- The function `printBackward`: the addresses of the jobs it prints, in
order. -/
def printBackward (s : Mem) : Except Fault (List Nat) :=
  backwardFrom s.heap s.list.numOfJobs.toNat s.list.lastJob

/-- The due time of the job stored at an address (0 when none is). -/
def dueTimeAt (h : Heap) (a : Nat) : Int :=
  match h a with
  | some j => dueTime j
  | none => 0

/-- The `int` value `insertOrdered` computes for the job at an address. -/
def intValueAt (h : Heap) (a : Nat) : Int :=
  match h a with
  | some j => intValue j
  | none => 0

/-- The call `malloc` inside `createJob`, returning the address `a`, followed
by the initialisation of the job.  An address that already holds a job is not
one `malloc` can return: `Fault.badAlloc` marks such a step as impossible. -/
def alloc (s : Mem) (a : Nat) (j : Job) : Except Fault Mem :=
  if (s.heap a).isNone then .ok { s with heap := store s.heap a j }
  else .error .badAlloc

/-- The call `free(p)`; `free(NULL)` does nothing. -/
def free (h : Heap) : Ptr → Heap
  | none => h
  | some a => fun b => if b = a then none else h b

/-- A call of one of the three queue operations.  `insertOrdered` and
`appendJob` receive a job just made by `createJob` at the address `addr`;
`deleteFirstJob` says whether its caller frees the job it got back. -/
inductive Op where
  | insertOrdered (addr : Nat) (inp : Submission) (now : Int)
  | appendJob (addr : Nat) (inp : Submission) (now : Int)
  | deleteFirstJob (release : Bool)

/-- Whether the call adds a job. -/
def Op.isInsert : Op → Bool
  | .insertOrdered _ _ _ => true
  | .appendJob _ _ _ => true
  | .deleteFirstJob _ => false

/-- Whether the call is `insertOrdered`. -/
def Op.isInsertOrdered : Op → Bool
  | .insertOrdered _ _ _ => true
  | .appendJob _ _ _ => false
  | .deleteFirstJob _ => false

/-- Whether the call is `appendJob`. -/
def Op.isAppendJob : Op → Bool
  | .insertOrdered _ _ _ => false
  | .appendJob _ _ _ => true
  | .deleteFirstJob _ => false

/-- Runs one queue operation; for `deleteFirstJob` also gives the pointer
returned. -/
def step (fuel : Nat) (s : Mem) : Op → Except Fault (Mem × Option Ptr)
  | .insertOrdered a inp now => do
    let s1 ← alloc s a (createJob inp now)
    let s2 ← insertOrdered fuel s1 (some a)
    pure (s2, none)
  | .appendJob a inp now => do
    let s1 ← alloc s a (createJob inp now)
    let s2 ← appendJob s1 (some a)
    pure (s2, none)
  | .deleteFirstJob release => do
    let (s1, r) ← deleteFirstJob s
    let s2 : Mem := if release then { s1 with heap := free s1.heap r } else s1
    pure (s2, some r)

/-- Runs a sequence of queue operations from a state; gives the final state
and the pointers returned by the `deleteFirstJob` calls, in order. -/
def run (fuel : Nat) : List Op → Mem → Except Fault (Mem × List Ptr)
  | [], s => .ok (s, [])
  | op :: ops, s => do
    let (s1, r) ← step fuel s op
    let (s2, rs) ← run fuel ops s1
    pure (s2, r.toList ++ rs)

/-- What one iteration of the dispatcher does: it starts an executor thread on
the pointer `deleteFirstJob` returned, or sleeps. -/
inductive Outcome where
  | execute (jobPtr : Ptr)
  | sleep
deriving DecidableEq

/-- One iteration of the `while` loop of `dispatch`, at the clock value
`curSysTime`. -/
def dispatch (s : Mem) (curSysTime : Int) : Except Fault (Mem × Outcome) :=
  match s.list.firstJob with
  | none => .ok (s, .sleep)
  | some a => do
    let j ← deref s.heap (some a)
    if curSysTime ≥ j.submissionTime + j.startTime then do
      let (s1, jobPtr) ← deleteFirstJob s
      pure (s1, .execute jobPtr)
    else pure (s, .sleep)

/-- The head of `l` as a pointer, or `nx` when `l` is empty. -/
def headOr (l : List Nat) (nx : Ptr) : Ptr :=
  match l with
  | [] => nx
  | a :: _ => some a

/-- The last address of `l` as a pointer, or `pv` when `l` is empty. -/
def lastOr (l : List Nat) (pv : Ptr) : Ptr :=
  match l.getLast? with
  | none => pv
  | some a => some a

/-- Checks that the addresses `l` hold jobs linked into a doubly-linked
segment: each job's `next` is the following address (`nx` after the last) and
each job's `prev` the preceding one (`pv` before the first). -/
def segB (h : Heap) : Ptr → List Nat → Ptr → Bool
  | _, [], _ => true
  | pv, a :: rest, nx =>
    match h a with
    | none => false
    | some j => decide (j.prev = pv) && (decide (j.next = headOr rest nx) && segB h (some a) rest nx)

/-- The addresses `l` form a doubly-linked segment of the heap between `pv`
and `nx`. -/
def Seg (h : Heap) (pv : Ptr) (l : List Nat) (nx : Ptr) : Prop := segB h pv l nx = true

instance (h : Heap) (pv : Ptr) (l : List Nat) (nx : Ptr) : Decidable (Seg h pv l nx) :=
  inferInstanceAs (Decidable (segB h pv l nx = true))

/-- A well-formed queue whose jobs are, from first to last, at the addresses
`l`: the addresses are distinct, the jobs are linked in both directions with
`NULL` at both ends, `firstJob` is the first address, `numOfJobs` the number of
addresses and, when there is a job, `lastJob` the last address.  (Nothing is
asked of `lastJob` in an empty queue.) -/
def WF (s : Mem) (l : List Nat) : Prop :=
  l.Nodup ∧ Seg s.heap none l none ∧ s.list.firstJob = l.head? ∧
    s.list.numOfJobs = l.length ∧ (l ≠ [] → s.list.lastJob = l.getLast?)

instance (s : Mem) (l : List Nat) : Decidable (WF s l) :=
  inferInstanceAs (Decidable (l.Nodup ∧ Seg s.heap none l none ∧ s.list.firstJob = l.head? ∧
    s.list.numOfJobs = l.length ∧ (l ≠ [] → s.list.lastJob = l.getLast?)))

/-- A job with its two links cleared: what `createJob` put into it. -/
def payload (j : Job) : Job := { j with prev := none, next := none }

/-- The two heaps hold the same jobs at the same addresses, up to the links. -/
def SameJobs (h h1 : Heap) : Prop := ∀ a, (h1 a).map payload = (h a).map payload

/-- The address `p` holds a job fresh from `createJob` (both links `NULL`) that
is not one of the queued jobs `l`. -/
def Fresh (h : Heap) (l : List Nat) (p : Nat) : Prop :=
  p ∉ l ∧ (h p).map (fun j => (j.prev, j.next)) = some (none, none)

instance (h : Heap) (l : List Nat) (p : Nat) : Decidable (Fresh h l p) :=
  inferInstanceAs (Decidable (p ∉ l ∧ (h p).map (fun j => (j.prev, j.next)) = some (none, none)))

/-- The walk from `temp` along `next` until `NULL`, at most `fuel` jobs long:
the addresses passed. -/
def chainFrom (h : Heap) : Nat → Ptr → Except Fault (List Nat)
  | _, none => .ok []
  | 0, some _ => .error .fuel
  | fuel + 1, some a =>
    match h a with
    | none => .error .dangling
    | some j => (chainFrom h fuel j.next).map (fun l => a :: l)

/-- The queued jobs at `l` are in non-decreasing order of the `int` values
`insertOrdered` compares. -/
def SortedInt (h : Heap) (l : List Nat) : Prop :=
  l.Pairwise (fun a b => intValueAt h a ≤ intValueAt h b)

instance (h : Heap) (l : List Nat) : Decidable (SortedInt h l) :=
  inferInstanceAs (Decidable (l.Pairwise (fun a b => intValueAt h a ≤ intValueAt h b)))

/-- The queued jobs at `l` are in non-decreasing order of due time. -/
def SortedDue (h : Heap) (l : List Nat) : Prop :=
  l.Pairwise (fun a b => dueTimeAt h a ≤ dueTimeAt h b)

instance (h : Heap) (l : List Nat) : Decidable (SortedDue h l) :=
  inferInstanceAs (Decidable (l.Pairwise (fun a b => dueTimeAt h a ≤ dueTimeAt h b)))

/-- The states reached from `createList` by a sequence of queue operations
none of which faults. -/
def Reachable (s : Mem) : Prop :=
  ∃ fuel ops rets, run fuel ops createList = .ok (s, rets)

/-- The state of the whole program between two atomic steps: the queue, the
clock, the jobs handed to executor threads so far (in order, as the executor
reads them) and the addresses of the jobs still owned by executor threads. -/
structure System where
  mem : Mem
  clock : Int
  started : List Job
  running : List Nat

/-- The atomic steps of the program: the `+` command of `main` with the
input `createJob` scans (the job is allocated at `addr`), the `-` command of
`main`, one iteration of `dispatch`, the end of an executor thread (which
frees its job), and the clock moving forward by `d` seconds. -/
inductive Event where
  | submit (addr : Nat) (inp : Submission)
  | cancel
  | dispatch
  | finish (addr : Nat)
  | tick (d : Nat)

/-- One atomic step of the program.  `submit` is `insertOrdered(listPtr,
createJob())` with the job stamped with the current clock value; `cancel` is
the `-` branch of `main`: `deleteFirstJob`, then `printJobInfo` reads the job
returned and `free` releases it; `dispatch` is one iteration of the dispatcher,
which on `execute` hands the job to a new executor thread; `finish` is the
`free` at the end of `execute`. -/
def System.step (fuel : Nat) (sys : System) : Event → Except Fault System
  | .submit a inp => do
    let (s1, _) ← JobDispatcher.step fuel sys.mem (Op.insertOrdered a inp sys.clock)
    pure { sys with mem := s1 }
  | .cancel => do
    let (s1, jobPtr) ← deleteFirstJob sys.mem
    let _ ← deref s1.heap jobPtr
    pure { sys with mem := { s1 with heap := free s1.heap jobPtr } }
  | .dispatch => do
    let (s1, out) ← dispatch sys.mem sys.clock
    match out with
    | .sleep => pure { sys with mem := s1 }
    | .execute jobPtr => do
      let j ← deref s1.heap jobPtr
      pure { sys with mem := s1, started := sys.started ++ [j],
                      running := sys.running ++ jobPtr.toList }
  | .finish a =>
    if a ∈ sys.running then
      pure { sys with mem := { sys.mem with heap := free sys.mem.heap (some a) },
                      running := sys.running.erase a }
    else .error .badAlloc
  | .tick d => pure { sys with clock := sys.clock + d }

/-- The program started at the clock value `t0`: an empty queue, nothing
dispatched. -/
def System.init (t0 : Int) : System :=
  { mem := createList, clock := t0, started := [], running := [] }

/-- Runs a sequence of atomic steps. -/
def System.run (fuel : Nat) : List Event → System → Except Fault System
  | [], sys => .ok sys
  | e :: es, sys => do
    let sys1 ← sys.step fuel e
    System.run fuel es sys1

/-- The final state of a run (the empty queue if the run faults). -/
def finalState (r : Except Fault (Mem × List Ptr)) : Mem :=
  match r with
  | .ok (s, _) => s
  | .error _ => createList

/-- Two insertions: a job due at `10` at the address `1`, then a job due at
`20` at the address `2`. -/
def twoJobsOps : List Op :=
  [.insertOrdered 1 ⟨1, ["a"], 10⟩ 0, .insertOrdered 2 ⟨1, ["b"], 20⟩ 0]

/-- The queue after `twoJobsOps`. -/
def twoJobs : Mem := finalState (run 2 twoJobsOps createList)

/-- One insertion: a job due at `10` at the address `1`. -/
def oneJobOps : List Op := [.insertOrdered 1 ⟨1, ["a"], 10⟩ 0]

/-- The queue after `oneJobOps`. -/
def oneJob : Mem := finalState (run 1 oneJobOps createList)

/-- Three insertions: jobs due at `10`, `20` and `20` at the addresses `1`, `2`
and `3`. -/
def threeJobsOps : List Op :=
  [.insertOrdered 1 ⟨1, ["a"], 10⟩ 0, .insertOrdered 2 ⟨1, ["b"], 20⟩ 0,
    .insertOrdered 3 ⟨1, ["c"], 20⟩ 0]

/-- The queue after `threeJobsOps`. -/
def threeJobs : Mem := finalState (run 3 threeJobsOps createList)

/-- An insertion, two deletions (the second on the empty queue), an append
that reuses the freed address and an insertion. -/
def mixedOps : List Op :=
  [.insertOrdered 1 ⟨1, ["a"], 10⟩ 0, .deleteFirstJob true, .deleteFirstJob true,
    .appendJob 1 ⟨1, ["b"], 20⟩ 5, .insertOrdered 2 ⟨1, ["c"], 7⟩ 6]

/-- The value is one an `int` holds. -/
def fitsInt (x : Int) : Prop := -2147483648 ≤ x ∧ x ≤ 2147483647

instance (x : Int) : Decidable (fitsInt x) :=
  inferInstanceAs (Decidable (-2147483648 ≤ x ∧ x ≤ 2147483647))

/-- Every job submitted in the run that starts at clock value `clock` has a
positive start time and a due time that an `int` holds. -/
def submitsFit : Int → List Event → Prop
  | _, [] => True
  | clock, .tick d :: es => submitsFit (clock + d) es
  | clock, .submit _ inp :: es =>
    0 < inp.startTime ∧ fitsInt (clock + inp.startTime) ∧ submitsFit clock es
  | clock, .cancel :: es => submitsFit clock es
  | clock, .dispatch :: es => submitsFit clock es
  | clock, .finish _ :: es => submitsFit clock es

/-- The invariant of the program while no due time has wrapped: the queue is
well formed and sorted by due time, every queued job is due no earlier than
every job already dispatched, the dispatched jobs were due by now and were
dispatched in due-time order, and the jobs owned by executors are allocated
and not queued. -/
structure SysInv (sys : System) (l : List Nat) : Prop where
  wf : WF sys.mem l
  sorted : SortedDue sys.mem.heap l
  fits : ∀ a ∈ l, fitsInt (dueTimeAt sys.mem.heap a)
  later : ∀ a ∈ l, ∀ j ∈ sys.started, dueTime j ≤ dueTimeAt sys.mem.heap a
  past : ∀ j ∈ sys.started, dueTime j ≤ sys.clock
  order : sys.started.Pairwise (fun j k => dueTime j ≤ dueTime k)
  runNodup : sys.running.Nodup
  runOut : ∀ a ∈ sys.running, a ∉ l ∧ sys.mem.heap a ≠ none

/-- The function `printJobInfo`, appending to the output `out`: it prints
`Program Name: `, then reads the job through `jobPtr` and prints its first
`numOfParameters` parameters, its submission time and its start time.  Reading
a parameter that `createJob` never wrote is `Fault.outOfBounds`. -/
def printJobInfo (h : Heap) (jobPtr : Ptr) (out : List String) :
    List String × Except Fault Unit :=
  let out1 := out ++ ["Program Name: "]
  match deref h jobPtr with
  | .error e => (out1, .error e)
  | .ok j =>
    if j.numOfParameters.toNat ≤ j.command.length then
      (out1 ++ (j.command.take j.numOfParameters.toNat).map (fun c => c ++ " ") ++
        ["\n", "Submission Time: " ++ toString j.submissionTime ++ "\n",
          "Start Time: " ++ toString j.startTime ++ "\n"], .ok ())
    else
      (out1 ++ j.command.map (fun c => c ++ " "), .error .outOfBounds)

/-- The `-` branch of the loop of `main`, at the clock value `curSysTime`: it
prints the time, calls `deleteFirstJob`, passes the pointer returned to
`printJobInfo` and frees it. -/
def mainDelete (s : Mem) (curSysTime : Int) : List String × Except Fault Mem :=
  let out0 := ["Current system time: " ++ toString curSysTime ++ "\n"]
  match deleteFirstJob s with
  | .error e => (out0, .error e)
  | .ok (s1, jobPtr) =>
    match printJobInfo s1.heap jobPtr out0 with
    | (out1, .error e) => (out1, .error e)
    | (out1, .ok _) => (out1, .ok { s1 with heap := free s1.heap jobPtr })

/-- An entry of the array `argv` of `execute`: not yet written, `NULL`, or the
pointer `jobPtr->command[i]` to the job's `i`-th parameter. -/
inductive ArgSlot where
  | uninit
  | null
  | param (i : Nat)
deriving DecidableEq

/-- The assignment `argv[i] = v` to an array of `argv.length` entries. -/
def writeArg (argv : List ArgSlot) (i : Nat) (v : ArgSlot) : Except Fault (List ArgSlot) :=
  if i < argv.length then .ok (argv.set i v) else .error .outOfBounds

/-- The loop of `prepareCmdParam`: `k` more iterations from index `i`, each
the assignment `argv[i] = jobPtr->command[i]`. -/
def fillArgs : Nat → Nat → List ArgSlot → Except Fault (List ArgSlot)
  | 0, _, argv => .ok argv
  | k + 1, i, argv => do
    let argv1 ← writeArg argv i (.param i)
    fillArgs k (i + 1) argv1

/-- The function `prepareCmdParam`: the array `argv` after the call. -/
def prepareCmdParam (h : Heap) (argv : List ArgSlot) (jobPtr : Ptr) :
    Except Fault (List ArgSlot) := do
  let j ← deref h jobPtr
  let argv1 ← fillArgs j.numOfParameters.toNat 0 argv
  if j.numOfParameters < 0 then .error .outOfBounds
  else writeArg argv1 j.numOfParameters.toNat .null

/-- The child branch of `execute` up to `execvp`: `prepareCmdParam` on the
local array `char *argv[5]`; the result is the argument vector `execvp`
gets. -/
def executeChild (h : Heap) (jobPtr : Ptr) : Except Fault (List ArgSlot) :=
  prepareCmdParam h (List.replicate 5 .uninit) jobPtr

/-- What the parent branch of `execute` leaves: the output, the heap after
`free(jobPtr)` (or the fault), and the clock value when `waitpid` returned. -/
structure Completion where
  out : List String
  result : Except Fault Heap
  finishedAt : Int

/-- The function `execute` in the parent process, entered at the clock value
`clock`: it reads the time, forks, waits for the child, which runs for
`childTime` seconds and leaves `status`, then prints the notice and frees the
job. -/
def execute (h : Heap) (jobPtr : Ptr) (clock : Int) (childTime : Nat) (status : Int) :
    Completion :=
  let curSysTime := clock
  let clock1 := clock + childTime
  match printJobInfo h jobPtr ["Job Deleted: \n"] with
  | (out1, .error e) => { out := out1, result := .error e, finishedAt := clock1 }
  | (out1, .ok _) =>
    { out := out1 ++ ["Current system time: " ++ toString curSysTime ++ "\n",
        "Status: " ++ toString status ++ "\n\n"],
      result := .ok (free h jobPtr), finishedAt := clock1 }

/-- The notice the specification describes for a job that completes at the
clock value `t` with exit status `status`. -/
def completionNotice (j : Job) (t : Int) (status : Int) : List String :=
  ["Job Deleted: \n", "Program Name: "] ++
    (j.command.take j.numOfParameters.toNat).map (fun c => c ++ " ") ++
    ["\n", "Submission Time: " ++ toString j.submissionTime ++ "\n",
      "Start Time: " ++ toString j.startTime ++ "\n",
      "Current system time: " ++ toString t ++ "\n", "Status: " ++ toString status ++ "\n\n"]

/-- One insertion and the deletion of the job inserted; the caller frees it. -/
def emptiedOps : List Op := [.insertOrdered 1 ⟨1, ["a"], 10⟩ 0, .deleteFirstJob true]

/-- The queue after `emptiedOps`: empty, with `lastJob` still set. -/
def emptied : Mem := finalState (run 1 emptiedOps createList)

/-- Two appends: a job due at `10` at the address `1`, then a job due at `5` at
the address `2`. -/
def appendedOps : List Op := [.appendJob 1 ⟨1, ["a"], 10⟩ 0, .appendJob 2 ⟨1, ["b"], 5⟩ 0]

/-- The queue after `appendedOps`. -/
def appended : Mem := finalState (run 1 appendedOps createList)

/-- One insertion at clock value 1700000000 of a job with start time 1. -/
def lateJobOps : List Op := [.insertOrdered 1 ⟨1, ["a"], 1⟩ 1700000000]

/-- The queue after `lateJobOps`. -/
def lateJob : Mem := finalState (run 1 lateJobOps createList)

/-- The job `sleep 60`, submitted at clock value 100 with start time 5. -/
def sleepJob : Job := createJob ⟨2, ["sleep", "60"], 5⟩ 100

/-- A heap holding `sleepJob` at the address `1`, as an executor gets it. -/
def sleepHeap : Heap := store (fun _ => none) 1 sleepJob

/-- A job with five parameters, the capacity of `command`. -/
def fiveParamJob : Job := createJob ⟨5, ["echo", "a", "b", "c", "d"], 1⟩ 100

/-- A heap holding `fiveParamJob` at the address `1`. -/
def fiveParamHeap : Heap := store (fun _ => none) 1 fiveParamJob

/-- Insertions of jobs due at `10`, `20` and `15` at the addresses `1`, `2` and
`3`, then a deletion whose caller frees the job. -/
def insertDeleteOps : List Op :=
  [.insertOrdered 1 ⟨1, ["a"], 10⟩ 0, .insertOrdered 2 ⟨1, ["b"], 20⟩ 0,
    .insertOrdered 3 ⟨1, ["c"], 15⟩ 0, .deleteFirstJob true]

/-- The queue after `insertDeleteOps`. -/
def insertDeleted : Mem := finalState (run 3 insertDeleteOps createList)

/-- Whether the call can be made in the state: the address of a new job is one
`malloc` can return, and the `int` value of a job given to `insertOrdered` is
not that of the first queued job, the case in which `insertBetween` is called at
the first job. -/
def Op.admissibleAt (s : Mem) : Op → Bool
  | .insertOrdered a inp now =>
    (s.heap a).isNone &&
      (match s.list.firstJob with
       | none => true
       | some hd => decide (toInt (now + inp.startTime) ≠ intValueAt s.heap hd))
  | .appendJob a _ _ => (s.heap a).isNone
  | .deleteFirstJob _ => true

/-- Whether every call of the sequence is admissible in the state it is made
in.  The state a call leaves is the one `step` gives; nothing is asked of the
calls that follow a call that does not complete. -/
def admissible (fuel : Nat) : List Op → Mem → Bool
  | [], _ => true
  | op :: ops, s =>
    op.admissibleAt s &&
      (match step fuel s op with
       | .ok (s1, _) => admissible fuel ops s1
       | .error _ => true)

/-- Two insertions of jobs that are both due at `10`, at the addresses `1` and
`2`. -/
def equalDueOps : List Op :=
  [.insertOrdered 1 ⟨1, ["a"], 10⟩ 0, .insertOrdered 2 ⟨1, ["b"], 10⟩ 0]

/-! ## Linked segments -/

theorem seg_nil (h : Heap) (pv nx : Ptr) : Seg h pv [] nx := by
  simp [Seg, segB]

theorem seg_cons (h : Heap) (pv nx : Ptr) (a : Nat) (rest : List Nat) :
    Seg h pv (a :: rest) nx ↔
      ∃ j, h a = some j ∧ j.prev = pv ∧ j.next = headOr rest nx ∧ Seg h (some a) rest nx := by
  unfold Seg
  rw [segB]
  cases hh : h a with
  | none => simp
  | some j => simp

theorem seg_frame {h h1 : Heap} {pv nx : Ptr} {l : List Nat}
    (hs : Seg h pv l nx) (hf : ∀ a ∈ l, h1 a = h a) : Seg h1 pv l nx := by
  induction l generalizing pv with
  | nil => exact seg_nil _ _ _
  | cons a rest ih =>
    rw [seg_cons] at hs ⊢
    obtain ⟨j, hj, hp, hn, hr⟩ := hs
    refine ⟨j, ?_, hp, hn, ih hr ?_⟩
    · rw [hf a (List.mem_cons_self _ _)]; exact hj
    · intro b hb; exact hf b (List.mem_cons_of_mem _ hb)

theorem seg_alloc {h : Heap} {pv nx : Ptr} {l : List Nat}
    (hs : Seg h pv l nx) {a : Nat} (ha : a ∈ l) : ∃ j, h a = some j := by
  induction l generalizing pv with
  | nil => cases ha
  | cons b rest ih =>
    rw [seg_cons] at hs
    obtain ⟨j, hj, -, -, hr⟩ := hs
    rcases List.mem_cons.1 ha with rfl | hm
    · exact ⟨j, hj⟩
    · exact ih hr hm

theorem lastOr_nil (pv : Ptr) : lastOr [] pv = pv := rfl

theorem lastOr_cons (a : Nat) (l : List Nat) (pv : Ptr) :
    lastOr (a :: l) pv = lastOr l (some a) := by
  cases l with
  | nil => rfl
  | cons b t =>
    simp only [lastOr, List.getLast?_cons_cons]
    rw [List.getLast?_eq_getLast _ (List.cons_ne_nil b t)]

theorem lastOr_append_singleton (l : List Nat) (c : Nat) (pv : Ptr) :
    lastOr (l ++ [c]) pv = some c := by
  simp [lastOr]

theorem seg_append (h : Heap) (l1 l2 : List Nat) (pv nx : Ptr) :
    Seg h pv (l1 ++ l2) nx ↔ Seg h pv l1 (headOr l2 nx) ∧ Seg h (lastOr l1 pv) l2 nx := by
  induction l1 generalizing pv with
  | nil => simp [seg_nil, lastOr_nil]
  | cons a rest ih =>
    have hh : headOr (rest ++ l2) nx = headOr rest (headOr l2 nx) := by
      cases rest <;> rfl
    rw [List.cons_append, seg_cons, seg_cons, lastOr_cons, ih, hh]
    constructor
    · rintro ⟨j, hj, hp, hn, h1, h2⟩
      exact ⟨⟨j, hj, hp, hn, h1⟩, h2⟩
    · rintro ⟨⟨j, hj, hp, hn, h1⟩, h2⟩
      exact ⟨j, hj, hp, hn, h1, h2⟩

theorem store_same (h : Heap) (a : Nat) (j : Job) : store h a j a = some j := by
  simp [store]

theorem store_other (h : Heap) {a b : Nat} (j : Job) (hne : b ≠ a) : store h a j b = h b := by
  simp [store, hne]

/-- Rewriting the `prev` link of the first job of a segment. -/
theorem seg_setPrev_head {h : Heap} {pv nx : Ptr} {t : Nat} {l : List Nat} {jt : Job}
    (hs : Seg h pv (t :: l) nx) (hnot : t ∉ l) (ht : h t = some jt) (pv1 : Ptr) :
    Seg (store h t { jt with prev := pv1 }) pv1 (t :: l) nx := by
  rw [seg_cons] at hs ⊢
  obtain ⟨j, hj, -, hn, hr⟩ := hs
  have hjt : j = jt := by rw [hj] at ht; exact Option.some.inj ht
  subst hjt
  refine ⟨{ j with prev := pv1 }, store_same _ _ _, rfl, hn, seg_frame hr ?_⟩
  intro b hb
  exact store_other _ _ (fun e => hnot (e ▸ hb))

/-- Rewriting the `next` link of the last job of a segment. -/
theorem seg_setNext_last {h : Heap} {pv nx : Ptr} {c : Nat} {l : List Nat} {jc : Job}
    (hs : Seg h pv (l ++ [c]) nx) (hnot : c ∉ l) (hc : h c = some jc) (nx1 : Ptr) :
    Seg (store h c { jc with next := nx1 }) pv (l ++ [c]) nx1 := by
  induction l generalizing pv with
  | nil =>
    rw [List.nil_append, seg_cons] at hs ⊢
    obtain ⟨j, hj, hp, -, -⟩ := hs
    have hjc : j = jc := by rw [hj] at hc; exact Option.some.inj hc
    subst hjc
    exact ⟨{ j with next := nx1 }, store_same _ _ _, hp, rfl, seg_nil _ _ _⟩
  | cons a rest ih =>
    rw [List.cons_append, seg_cons] at hs ⊢
    obtain ⟨j, hj, hp, hn, hr⟩ := hs
    have hca : a ≠ c := fun e => hnot (e ▸ List.mem_cons_self _ _)
    have hcr : c ∉ rest := fun hm => hnot (List.mem_cons_of_mem _ hm)
    refine ⟨j, ?_, hp, ?_, ih hr hcr⟩
    · rw [store_other _ _ hca]; exact hj
    · rw [hn]; cases rest <;> rfl

/-! ## Heap updates -/

theorem deref_ok {h : Heap} {a : Nat} {j : Job} (ha : h a = some j) :
    deref h (some a) = .ok j := by
  simp [deref, ha]

theorem setNext_ok {h : Heap} {a : Nat} {j : Job} (ha : h a = some j) (v : Ptr) :
    setNext h (some a) v = .ok (store h a { j with next := v }) := by
  simp [setNext, ha]

theorem setPrev_ok {h : Heap} {a : Nat} {j : Job} (ha : h a = some j) (v : Ptr) :
    setPrev h (some a) v = .ok (store h a { j with prev := v }) := by
  simp [setPrev, ha]

theorem sameJobs_refl (h : Heap) : SameJobs h h := fun _ => rfl

theorem sameJobs_trans {h1 h2 h3 : Heap} (h12 : SameJobs h1 h2) (h23 : SameJobs h2 h3) :
    SameJobs h1 h3 := fun a => (h23 a).trans (h12 a)

theorem sameJobs_store {h : Heap} {a : Nat} {j j1 : Job} (ha : h a = some j)
    (hp : payload j1 = payload j) : SameJobs h (store h a j1) := by
  intro b
  by_cases hb : b = a
  · subst hb; simp [store, ha, hp]
  · simp [store, hb]

theorem sameJobs_setNext {h : Heap} {a : Nat} {j : Job} (ha : h a = some j) (v : Ptr) :
    SameJobs h (store h a { j with next := v }) :=
  sameJobs_store ha rfl

theorem sameJobs_setPrev {h : Heap} {a : Nat} {j : Job} (ha : h a = some j) (v : Ptr) :
    SameJobs h (store h a { j with prev := v }) :=
  sameJobs_store ha rfl

theorem bind_ok {α β : Type} (a : α) (f : α → Except Fault β) :
    (Except.ok a >>= f) = f a := rfl

theorem sameJobs_dueTimeAt {h h1 : Heap} (hs : SameJobs h h1) (a : Nat) :
    dueTimeAt h1 a = dueTimeAt h a := by
  have := hs a
  unfold dueTimeAt
  cases h1a : h1 a <;> cases ha : h a <;> simp [h1a, ha] at this ⊢
  have h2 := congrArg dueTime this
  simpa [payload, dueTime] using h2

theorem sameJobs_intValueAt {h h1 : Heap} (hs : SameJobs h h1) (a : Nat) :
    intValueAt h1 a = intValueAt h a := by
  have := hs a
  unfold intValueAt
  cases h1a : h1 a <;> cases ha : h a <;> simp [h1a, ha] at this ⊢
  have h2 := congrArg intValue this
  simpa [payload, intValue] using h2

theorem fresh_job {h : Heap} {l : List Nat} {p : Nat} (hf : Fresh h l p) :
    ∃ j, h p = some j ∧ j.prev = none ∧ j.next = none := by
  obtain ⟨-, hm⟩ := hf
  cases hp : h p with
  | none => simp [hp] at hm
  | some j =>
    simp only [hp, Option.map_some', Option.some.injEq, Prod.mk.injEq] at hm
    exact ⟨j, rfl, hm.1, hm.2⟩

/-! ## The four insertion helpers and `deleteFirstJob` on a well-formed queue -/

theorem insertFirst_spec {s : Mem} {a p : Nat} {rest : List Nat}
    (hwf : WF s (a :: rest)) (hf : Fresh s.heap (a :: rest) p) :
    ∃ h2, insertFirst s (some p) = .ok ⟨h2, { s.list with firstJob := some p }⟩ ∧
      Seg h2 none (p :: a :: rest) none ∧ SameJobs s.heap h2 := by
  obtain ⟨hnd, hseg, hfirst, -, -⟩ := hwf
  obtain ⟨jp, hp, hpp, hpn⟩ := fresh_job hf
  have hpa : p ≠ a := fun e => hf.1 (e ▸ List.mem_cons_self _ _)
  have hseg0 := hseg
  rw [seg_cons] at hseg
  obtain ⟨ja, ha, -, -, -⟩ := hseg
  have ha1 : store s.heap p { jp with next := some a } a = some ja := by
    rw [store_other _ _ (Ne.symm hpa)]; exact ha
  refine ⟨store (store s.heap p { jp with next := some a }) a { ja with prev := some p }, ?_, ?_, ?_⟩
  · simp only [insertFirst, hfirst, List.head?_cons]
    rw [setNext_ok hp, bind_ok, setPrev_ok ha1]
    rfl
  · have hseg1 : Seg (store s.heap p { jp with next := some a }) none (a :: rest) none :=
      seg_frame hseg0 (fun b hb => store_other _ _ (fun e => hf.1 (e ▸ hb)))
    rw [seg_cons]
    refine ⟨{ jp with next := some a }, ?_, hpp, rfl,
      seg_setPrev_head hseg1 (List.nodup_cons.1 hnd).1 ha1 (some p)⟩
    rw [store_other _ _ hpa, store_same]
  · exact sameJobs_trans (sameJobs_setNext hp _) (sameJobs_setPrev ha1 _)

theorem insertLast_spec {s : Mem} {b p : Nat} {l : List Nat}
    (hwf : WF s (l ++ [b])) (hf : Fresh s.heap (l ++ [b]) p) :
    ∃ h2, insertLast s (some p) = .ok ⟨h2, { s.list with lastJob := some p }⟩ ∧
      Seg h2 none (l ++ [b] ++ [p]) none ∧ SameJobs s.heap h2 := by
  obtain ⟨hnd, hseg, -, -, hlast⟩ := hwf
  obtain ⟨jp, hp, hpp, hpn⟩ := fresh_job hf
  have hlast1 : s.list.lastJob = some b := by
    rw [hlast (by simp)]; simp
  have hpb : p ≠ b := fun e => hf.1 (e ▸ by simp)
  obtain ⟨jb, hb⟩ := seg_alloc hseg (a := b) (by simp)
  have hp1 : store s.heap b { jb with next := some p } p = some jp := by
    rw [store_other _ _ hpb]; exact hp
  have hbl : b ∉ l := by
    intro hm
    have := List.nodup_append.1 hnd
    exact this.2.2 hm (by simp)
  refine ⟨store (store s.heap b { jb with next := some p }) p { jp with prev := some b }, ?_, ?_, ?_⟩
  · simp only [insertLast, hlast1]
    rw [setNext_ok hb, bind_ok, setPrev_ok hp1]
    rfl
  · rw [seg_append]
    constructor
    · have h1 := seg_setNext_last hseg hbl hb (some p)
      exact seg_frame h1 (fun c hc => store_other _ _ (fun e => hf.1 (e ▸ hc)))
    · rw [lastOr_append_singleton, seg_cons]
      exact ⟨{ jp with prev := some b }, store_same _ _ _, rfl, hpn, seg_nil _ _ _⟩
  · exact sameJobs_trans (sameJobs_setNext hb _) (sameJobs_setPrev hp1 _)

theorem insertBetween_spec {s : Mem} {c t p : Nat} {l1 l2 : List Nat}
    (hwf : WF s (l1 ++ c :: t :: l2)) (hf : Fresh s.heap (l1 ++ c :: t :: l2) p) :
    ∃ h4, insertBetween s (some p) (some t) = .ok ⟨h4, s.list⟩ ∧
      Seg h4 none (l1 ++ c :: p :: t :: l2) none ∧ SameJobs s.heap h4 := by
  obtain ⟨hnd, hseg, -, -, -⟩ := hwf
  obtain ⟨jp, hp, hpp, hpn⟩ := fresh_job hf
  have hsplit : l1 ++ c :: t :: l2 = (l1 ++ [c]) ++ (t :: l2) := by simp
  rw [hsplit] at hseg hnd
  have hpnot := hf.1
  rw [hsplit] at hpnot
  rw [seg_append, lastOr_append_singleton] at hseg
  obtain ⟨hsA, hsB⟩ := hseg
  have hsB0 := hsB
  rw [seg_cons] at hsB
  obtain ⟨jt, ht, htp, -, -⟩ := hsB
  obtain ⟨jc, hc⟩ := seg_alloc hsA (a := c) (by simp)
  have hnd3 := List.nodup_append.1 hnd
  have hpt : p ≠ t := fun e => hpnot (e ▸ by simp)
  have hpc : p ≠ c := fun e => hpnot (e ▸ by simp)
  have hdis : ∀ x, x ∈ l1 ++ [c] → x ∈ t :: l2 → False := fun x h1 h2 => hnd3.2.2 h1 h2
  have hct : c ≠ t := fun e => hdis c (by simp) (e ▸ by simp)
  have hcl1 : c ∉ l1 := by
    intro hm
    exact (List.nodup_append.1 hnd3.1).2.2 hm (by simp)
  have htl2 : t ∉ l2 := (List.nodup_cons.1 hnd3.2.1).1
  -- the four assignments
  have e1 : store s.heap p { jp with next := some t } t = some jt := by
    rw [store_other _ _ (Ne.symm hpt)]; exact ht
  have e1p : store s.heap p { jp with next := some t } p = some { jp with next := some t } :=
    store_same _ _ _
  have e2 : store (store s.heap p { jp with next := some t }) p
      { jp with next := some t, prev := some c } t = some jt := by
    rw [store_other _ _ (Ne.symm hpt)]; exact e1
  have e2c : store (store s.heap p { jp with next := some t }) p
      { jp with next := some t, prev := some c } c = some jc := by
    rw [store_other _ _ (Ne.symm hpc), store_other _ _ (Ne.symm hpc)]; exact hc
  have e3 : store (store (store s.heap p { jp with next := some t }) p
      { jp with next := some t, prev := some c }) c { jc with next := some p } t = some jt := by
    rw [store_other _ _ (Ne.symm hct)]; exact e2
  refine ⟨store (store (store (store s.heap p { jp with next := some t }) p
      { jp with next := some t, prev := some c }) c { jc with next := some p }) t
      { jt with prev := some p }, ?_, ?_, ?_⟩
  · simp only [insertBetween]
    rw [setNext_ok hp, bind_ok, deref_ok e1, bind_ok, htp, setPrev_ok e1p,
      bind_ok, deref_ok e2, bind_ok, htp, setNext_ok e2c, bind_ok,
      setPrev_ok e3]
    rfl
  · have hgoal : l1 ++ c :: p :: t :: l2 = (l1 ++ [c]) ++ (p :: t :: l2) := by simp
    rw [hgoal, seg_append, lastOr_append_singleton]
    constructor
    · have hA2 : Seg (store (store s.heap p { jp with next := some t }) p
          { jp with next := some t, prev := some c }) none (l1 ++ [c]) (some t) := by
        refine seg_frame hsA (fun b hb => ?_)
        have hbp : b ≠ p := fun e => hpnot (List.mem_append_left _ (e ▸ hb))
        rw [store_other _ _ hbp, store_other _ _ hbp]
      have hA3 := seg_setNext_last hA2 hcl1 e2c (some p)
      refine seg_frame hA3 (fun b hb => store_other _ _ ?_)
      intro e
      exact hdis b hb (e ▸ by simp)
    · rw [seg_cons]
      refine ⟨{ jp with next := some t, prev := some c }, ?_, rfl, rfl, ?_⟩
      · rw [store_other _ _ hpt, store_other _ _ hpc, store_same]
      · have hB3 : Seg (store (store (store s.heap p { jp with next := some t }) p
            { jp with next := some t, prev := some c }) c { jc with next := some p })
            (some c) (t :: l2) none := by
          refine seg_frame hsB0 (fun b hb => ?_)
          have hbp : b ≠ p := fun e => hpnot (List.mem_append_right _ (e ▸ hb))
          have hbc : b ≠ c := fun e => hdis c (by simp) (e ▸ hb)
          rw [store_other _ _ hbc, store_other _ _ hbp, store_other _ _ hbp]
        exact seg_setPrev_head hB3 htl2 e3 (some p)
  · exact sameJobs_trans (sameJobs_trans (sameJobs_trans (sameJobs_setNext hp _)
      (sameJobs_setPrev e1p _)) (sameJobs_setNext e2c _)) (sameJobs_setPrev e3 _)

/-- Called on the first job of the queue, `insertBetween` follows the `NULL`
link `ahead->prev`. -/
theorem insertBetween_head {s : Mem} {t p : Nat} {l2 : List Nat}
    (hwf : WF s (t :: l2)) (hf : Fresh s.heap (t :: l2) p) :
    insertBetween s (some p) (some t) = .error .nullDeref := by
  obtain ⟨-, hseg, -, -, -⟩ := hwf
  obtain ⟨jp, hp, -, -⟩ := fresh_job hf
  rw [seg_cons] at hseg
  obtain ⟨jt, ht, htp, -, -⟩ := hseg
  have hpt : p ≠ t := fun e => hf.1 (e ▸ List.mem_cons_self _ _)
  have e1 : store s.heap p { jp with next := some t } t = some jt := by
    rw [store_other _ _ (Ne.symm hpt)]; exact ht
  have e1p : store s.heap p { jp with next := some t } p = some { jp with next := some t } :=
    store_same _ _ _
  have e2 : store (store s.heap p { jp with next := some t }) p
      { jp with next := some t, prev := none } t = some jt := by
    rw [store_other _ _ (Ne.symm hpt)]; exact e1
  simp only [insertBetween]
  rw [setNext_ok hp, bind_ok, deref_ok e1, bind_ok, htp, setPrev_ok e1p, bind_ok,
    deref_ok e2, bind_ok, htp]
  rfl

theorem deleteFirstJob_spec {s : Mem} {a : Nat} {rest : List Nat} (hwf : WF s (a :: rest)) :
    ∃ s1, deleteFirstJob s = .ok (s1, some a) ∧ WF s1 rest ∧ SameJobs s.heap s1.heap ∧
      s1.list.lastJob = s.list.lastJob := by
  obtain ⟨hnd, hseg, hfirst, hnum, hlast⟩ := hwf
  rw [seg_cons] at hseg
  obtain ⟨ja, ha, -, hanext, hrest⟩ := hseg
  have hn0 : s.list.numOfJobs ≠ 0 := by
    rw [hnum]; simp only [List.length_cons]; push_cast; omega
  have hfirst1 : s.list.firstJob = some a := by simpa using hfirst
  cases rest with
  | nil =>
    refine ⟨⟨s.heap, ⟨s.list.numOfJobs - 1, none, s.list.lastJob⟩⟩, ?_, ?_, sameJobs_refl _, rfl⟩
    · have hnx : ja.next = none := hanext
      simp only [deleteFirstJob, hn0, if_false, hfirst1]
      rw [deref_ok ha, bind_ok, hnx]
      rfl
    · refine ⟨List.nodup_nil, seg_nil _ _ _, rfl, ?_, fun h => absurd rfl h⟩
      simp [hnum]
  | cons b r =>
    have hnx : ja.next = some b := hanext
    have hrest0 := hrest
    rw [seg_cons] at hrest
    obtain ⟨jb, hb, -, -, -⟩ := hrest
    refine ⟨⟨store s.heap b { jb with prev := none },
      ⟨s.list.numOfJobs - 1, some b, s.list.lastJob⟩⟩, ?_, ?_, sameJobs_setPrev hb _, rfl⟩
    · simp only [deleteFirstJob, hn0, if_false, hfirst1]
      rw [deref_ok ha, bind_ok, hnx]
      simp only [ne_eq, reduceCtorEq, not_false_eq_true, if_true]
      rw [setPrev_ok hb]
      rfl
    · have hnd1 := List.nodup_cons.1 hnd
      refine ⟨hnd1.2, seg_setPrev_head hrest0 (List.nodup_cons.1 hnd1.2).1 hb none, rfl, ?_, ?_⟩
      · simp only [hnum, List.length_cons]; push_cast; ring
      · intro _
        show s.list.lastJob = _
        rw [hlast (by simp)]
        simp [List.getLast?_cons_cons]

theorem intValueAt_eq {h : Heap} {a : Nat} {j : Job} (ha : h a = some j) :
    intValueAt h a = intValue j := by
  simp [intValueAt, ha]

theorem dueTimeAt_eq {h : Heap} {a : Nat} {j : Job} (ha : h a = some j) :
    dueTimeAt h a = dueTime j := by
  simp [dueTimeAt, ha]

/-- The loop of `insertOrdered` on a linked segment `t :: l2` that ends in
`NULL`: either the fuel runs out, or it stops at the first job `t1` whose value
is not below `insertValue`, or at the last job. -/
theorem scan_spec (h : Heap) (iv : Int) (l2 : List Nat) :
    ∀ (t : Nat) (pv : Ptr) (fuel : Nat), Seg h pv (t :: l2) none →
      (scan h iv fuel (some t) (intValueAt h t) = .error .fuel ∧ fuel ≤ l2.length) ∨
      ∃ m1 t1 m2, t :: l2 = m1 ++ t1 :: m2 ∧
        scan h iv fuel (some t) (intValueAt h t) = .ok (some t1, intValueAt h t1) ∧
        (∀ a ∈ m1, intValueAt h a < iv) ∧ (iv ≤ intValueAt h t1 ∨ m2 = []) := by
  induction l2 with
  | nil =>
    intro t pv fuel hseg
    cases fuel with
    | zero => left; exact ⟨rfl, le_refl _⟩
    | succ f =>
      right
      rw [seg_cons] at hseg
      obtain ⟨jt, ht, -, hn, -⟩ := hseg
      have hnx : jt.next = none := hn
      refine ⟨[], t, [], rfl, ?_, fun a ha => (by cases ha), Or.inr rfl⟩
      rw [scan]
      split
      · rw [deref_ok ht, bind_ok, hnx]; rfl
      · rfl
  | cons u l3 ih =>
    intro t pv fuel hseg
    cases fuel with
    | zero => left; exact ⟨rfl, Nat.zero_le _⟩
    | succ f =>
      rw [seg_cons] at hseg
      obtain ⟨jt, ht, -, hn, hrest⟩ := hseg
      have hnx : jt.next = some u := hn
      have hrest0 := hrest
      rw [seg_cons] at hrest
      obtain ⟨ju, hu, -, -, -⟩ := hrest
      by_cases hlt : iv > intValueAt h t
      · have hstep : scan h iv (f + 1) (some t) (intValueAt h t) =
            scan h iv f (some u) (intValueAt h u) := by
          rw [scan, if_pos hlt, deref_ok ht, bind_ok, hnx]
          simp only [ne_eq, reduceCtorEq, not_false_eq_true, if_true]
          rw [deref_ok hu, bind_ok, intValueAt_eq hu]
        rcases ih u (some t) f hrest0 with ⟨he, hle⟩ | ⟨m1, t1, m2, hsplit, hok, hm1, hend⟩
        · left
          exact ⟨by rw [hstep]; exact he, by simpa using hle⟩
        · right
          refine ⟨t :: m1, t1, m2, by rw [hsplit]; rfl, by rw [hstep]; exact hok, ?_, hend⟩
          intro a ha
          rcases List.mem_cons.1 ha with rfl | hm
          · exact hlt
          · exact hm1 a hm
      · right
        refine ⟨[], t, u :: l3, rfl, ?_, fun a ha => (by cases ha), Or.inl (not_lt.1 hlt)⟩
        rw [scan, if_neg hlt]
        rfl

theorem forwardFrom_seg {h : Heap} {l : List Nat} :
    ∀ {pv nx : Ptr}, Seg h pv l nx → forwardFrom h l.length (headOr l nx) = .ok l := by
  induction l with
  | nil => intro pv nx _; rfl
  | cons a rest ih =>
    intro pv nx hseg
    rw [seg_cons] at hseg
    obtain ⟨j, hj, -, hn, hr⟩ := hseg
    show forwardFrom h (rest.length + 1) (some a) = _
    rw [forwardFrom]
    simp only [hj, hn]
    rw [ih hr]
    rfl

theorem printForward_wf {s : Mem} {l : List Nat} (hwf : WF s l) : printForward s = .ok l := by
  obtain ⟨-, hseg, hfirst, hnum, -⟩ := hwf
  have := forwardFrom_seg hseg
  unfold printForward
  rw [hnum, hfirst]
  have hh : l.head? = headOr l none := by cases l <;> rfl
  rw [hh]
  simpa using this

theorem chainFrom_seg {h : Heap} {l : List Nat} :
    ∀ {pv : Ptr} (fuel : Nat), Seg h pv l none → l.length ≤ fuel →
      chainFrom h fuel (headOr l none) = .ok l := by
  induction l with
  | nil =>
    intro pv fuel _ _
    cases fuel <;> rfl
  | cons a rest ih =>
    intro pv fuel hseg hle
    rw [seg_cons] at hseg
    obtain ⟨j, hj, -, hn, hr⟩ := hseg
    cases fuel with
    | zero => simp at hle
    | succ f =>
      show chainFrom h (f + 1) (some a) = _
      rw [chainFrom]
      simp only [hj, hn]
      rw [ih f hr (by simpa using hle)]
      rfl

theorem nodup_insert (l1 l2 : List Nat) {p : Nat} (hnd : (l1 ++ l2).Nodup) (hp : p ∉ l1 ++ l2) :
    (l1 ++ p :: l2).Nodup :=
  List.nodup_middle.2 (List.nodup_cons.2 ⟨hp, hnd⟩)

theorem insertOrdered_nonempty {fuel : Nat} {s : Mem} {p hd : Nat} {jhd jp : Job}
    (hn0 : s.list.numOfJobs ≠ 0) (hfirst : s.list.firstJob = some hd)
    (hhd : s.heap hd = some jhd) (hp : s.heap p = some jp) :
    insertOrdered fuel s (some p) =
      (if intValue jp < intValue jhd then insertFirst s (some p)
        else scan s.heap (intValue jp) fuel (some hd) (intValue jhd) >>= fun r =>
          if intValue jp ≤ r.2 then insertBetween s (some p) r.1 else insertLast s (some p))
        >>= fun s1 =>
          pure ⟨s1.heap, ⟨s1.list.numOfJobs + 1, s1.list.firstJob, s1.list.lastJob⟩⟩ := by
  simp only [insertOrdered, hn0, if_false, hfirst]
  rw [deref_ok hhd, bind_ok, deref_ok hp, bind_ok]
  by_cases hlt : intValue jp < intValue jhd
  · rw [if_pos hlt, if_pos hlt]
  · rw [if_neg hlt, if_neg hlt]
    generalize scan s.heap (intValue jp) fuel (some hd) (intValue jhd) = r
    cases r with
    | error e => rfl
    | ok r =>
      rw [bind_ok, bind_ok]
      by_cases hle : intValue jp ≤ r.2
      · rw [if_pos hle, if_pos hle]
      · rw [if_neg hle, if_neg hle]

/-- What `insertOrdered` does with a fresh job on a well-formed queue: it runs
out of fuel, or follows a `NULL` link because the new job has the same value as
the first job, or links the new job in after the jobs of smaller value. -/
theorem insertOrdered_cases {s : Mem} {l : List Nat} {p : Nat} (fuel : Nat)
    (hwf : WF s l) (hf : Fresh s.heap l p) :
    (insertOrdered fuel s (some p) = .error .fuel ∧ fuel < l.length) ∨
    (insertOrdered fuel s (some p) = .error .nullDeref ∧
      ∃ hd, l.head? = some hd ∧ intValueAt s.heap p = intValueAt s.heap hd) ∨
    (∃ s1 l1 l2, insertOrdered fuel s (some p) = .ok s1 ∧ l = l1 ++ l2 ∧
      WF s1 (l1 ++ p :: l2) ∧
      (∀ a ∈ l1, intValueAt s.heap a < intValueAt s.heap p) ∧
      (∀ a, l2.head? = some a → intValueAt s.heap p ≤ intValueAt s.heap a) ∧
      (∀ hd, l.head? = some hd → intValueAt s.heap p ≠ intValueAt s.heap hd) ∧
      SameJobs s.heap s1.heap) := by
  obtain ⟨jp, hp, hpp, hpn⟩ := fresh_job hf
  have hwf0 := hwf
  obtain ⟨hnd, hseg, hfirst, hnum, hlast⟩ := hwf
  cases l with
  | nil =>
    right; right
    have hn0 : s.list.numOfJobs = 0 := by simpa using hnum
    refine ⟨⟨s.heap, ⟨s.list.numOfJobs + 1, some p, some p⟩⟩, [], [], ?_, rfl, ?_,
      fun a ha => (by cases ha), fun a ha => (by cases ha), fun a ha => (by cases ha),
      sameJobs_refl _⟩
    · simp only [insertOrdered, hn0, if_true, insertOnly]
      rfl
    · refine ⟨by simp, ?_, rfl, ?_, fun _ => rfl⟩
      · show Seg s.heap none [p] none
        rw [seg_cons]
        exact ⟨jp, hp, hpp, hpn, seg_nil _ _ _⟩
      · simp [hn0]
  | cons hd tl =>
    have hn0 : s.list.numOfJobs ≠ 0 := by
      rw [hnum]; simp only [List.length_cons]; push_cast; omega
    have hfirst1 : s.list.firstJob = some hd := by simpa using hfirst
    obtain ⟨jhd, hhd⟩ := seg_alloc hseg (a := hd) (List.mem_cons_self _ _)
    have hvp : intValueAt s.heap p = intValue jp := intValueAt_eq hp
    have hvhd : intValueAt s.heap hd = intValue jhd := intValueAt_eq hhd
    by_cases hlt : intValue jp < intValue jhd
    · -- the new job becomes the first job
      right; right
      obtain ⟨h2, hins, hseg2, hsame⟩ := insertFirst_spec hwf0 hf
      refine ⟨⟨h2, ⟨s.list.numOfJobs + 1, some p, s.list.lastJob⟩⟩, [], hd :: tl, ?_, rfl, ?_,
        fun a ha => (by cases ha), ?_, ?_, hsame⟩
      · rw [insertOrdered_nonempty hn0 hfirst1 hhd hp, if_pos hlt, hins]
        rfl
      · refine ⟨nodup_insert [] (hd :: tl) hnd hf.1, hseg2, rfl, ?_, fun _ => ?_⟩
        · show s.list.numOfJobs + 1 = _
          rw [hnum]; simp
        · show s.list.lastJob = _
          rw [hlast (by simp)]
          simp [List.getLast?_cons_cons]
      · intro a ha
        simp only [List.head?_cons, Option.some.injEq] at ha
        subst ha
        rw [hvp, hvhd]; exact le_of_lt hlt
      · intro a ha
        simp only [List.head?_cons, Option.some.injEq] at ha
        subst ha
        rw [hvp, hvhd]; exact ne_of_lt hlt
    · -- the loop runs from the first job
      have hscan := scan_spec s.heap (intValue jp) tl hd none fuel hseg
      rw [hvhd] at hscan
      rcases hscan with ⟨he, hle⟩ | ⟨m1, t1, m2, hsplit, hok, hm1, hend⟩
      · left
        refine ⟨?_, by simpa using Nat.lt_succ_of_le hle⟩
        rw [insertOrdered_nonempty hn0 hfirst1 hhd hp, if_neg hlt, he]
        rfl
      · by_cases hbetween : intValue jp ≤ intValueAt s.heap t1
        · rcases List.eq_nil_or_concat m1 with hm1nil | ⟨m3, c, hm1c⟩
          · -- the loop stopped at the first job: `insertBetween` has no predecessor
            right; left
            subst hm1nil
            simp only [List.nil_append, List.cons.injEq] at hsplit
            obtain ⟨hhd1, htl⟩ := hsplit
            subst hhd1
            refine ⟨?_, hd, rfl, ?_⟩
            · rw [insertOrdered_nonempty hn0 hfirst1 hhd hp, if_neg hlt, hok, bind_ok]
              simp only [if_pos hbetween]
              rw [insertBetween_head hwf0 hf]
              rfl
            · rw [hvp, hvhd]
              rw [hvhd] at hbetween
              exact le_antisymm hbetween (not_lt.1 hlt)
          · -- the new job goes between `c` and `t1`
            right; right
            rw [List.concat_eq_append] at hm1c
            subst hm1c
            have hl : hd :: tl = m3 ++ c :: t1 :: m2 := by rw [hsplit]; simp
            rw [hl] at hwf0 hf hfirst hnum hlast hnd
            obtain ⟨h4, hins, hseg4, hsame⟩ := insertBetween_spec hwf0 hf
            refine ⟨⟨h4, ⟨s.list.numOfJobs + 1, s.list.firstJob, s.list.lastJob⟩⟩,
              m3 ++ [c], t1 :: m2, ?_, by rw [hl]; simp, ?_, ?_, ?_, ?_, hsame⟩
            · rw [insertOrdered_nonempty hn0 hfirst1 hhd hp, if_neg hlt, hok, bind_ok]
              simp only [if_pos hbetween]
              rw [hins]
              rfl
            · have e : m3 ++ [c] ++ p :: t1 :: m2 = m3 ++ c :: p :: t1 :: m2 := by simp
              rw [e]
              refine ⟨?_, hseg4, ?_, ?_, fun _ => ?_⟩
              · have := nodup_insert (m3 ++ [c]) (t1 :: m2)
                  (by simpa using hnd) (by simpa using hf.1)
                simpa using this
              · show s.list.firstJob = _
                rw [hfirst]
                cases m3 <;> rfl
              · show s.list.numOfJobs + 1 = _
                rw [hnum]; simp only [List.length_append, List.length_cons]; push_cast; ring
              · show s.list.lastJob = _
                rw [hlast (by simp)]
                simp [List.getLast?_append, List.getLast?_cons_cons]
            · intro a ha
              rw [hvp]; exact hm1 a ha
            · intro a ha
              simp only [List.head?_cons, Option.some.injEq] at ha
              subst ha
              rw [hvp]; exact hbetween
            · intro a ha
              have hm : hd ∈ m3 ++ [c] := by
                have h0 : (hd :: tl).head? = (m3 ++ c :: t1 :: m2).head? := by rw [hl]
                cases m3 with
                | nil =>
                  simp only [List.head?_cons, List.nil_append, Option.some.injEq] at h0
                  simp [h0]
                | cons x xs =>
                  simp only [List.head?_cons, List.cons_append, Option.some.injEq] at h0
                  simp [h0]
              have hlt1 := hm1 hd hm
              have ha1 : a = hd := by simpa using ha.symm
              subst ha1
              rw [hvp]; exact ne_of_gt hlt1
        · -- the new job goes after the last job
          right; right
          have hm2 : m2 = [] := by
            rcases hend with h1 | h1
            · exact absurd h1 hbetween
            · exact h1
          subst hm2
          have hl : hd :: tl = m1 ++ [t1] := hsplit
          rw [hl] at hwf0 hf hfirst hnum hlast hnd
          obtain ⟨h2, hins, hseg2, hsame⟩ := insertLast_spec hwf0 hf
          refine ⟨⟨h2, ⟨s.list.numOfJobs + 1, s.list.firstJob, some p⟩⟩,
            m1 ++ [t1], [], ?_, by rw [hl]; simp, ?_, ?_, fun a ha => (by cases ha), ?_, hsame⟩
          · rw [insertOrdered_nonempty hn0 hfirst1 hhd hp, if_neg hlt, hok, bind_ok]
            simp only [if_neg hbetween]
            rw [hins]
            rfl
          · refine ⟨?_, hseg2, ?_, ?_, fun _ => ?_⟩
            · exact nodup_insert (m1 ++ [t1]) [] (by simpa using hnd)
                (by simpa using hf.1)
            · show s.list.firstJob = _
              rw [hfirst]
              cases m1 <;> rfl
            · show s.list.numOfJobs + 1 = _
              rw [hnum]; simp only [List.length_append, List.length_cons, List.length_nil]
              push_cast; ring
            · show some p = _
              simp
          · intro a ha
            rw [hvp]
            rcases List.mem_append.1 ha with h1 | h1
            · exact hm1 a h1
            · simp only [List.mem_singleton] at h1
              subst h1
              exact not_le.1 hbetween
          · intro a ha
            have hgt : intValueAt s.heap hd < intValue jp := by
              have hmem : hd ∈ m1 ++ [t1] := by rw [← hl]; exact List.mem_cons_self _ _
              rcases List.mem_append.1 hmem with h1 | h1
              · exact hm1 hd h1
              · simp only [List.mem_singleton] at h1
                rw [h1]; exact not_le.1 hbetween
            have ha1 : a = hd := by simpa using ha.symm
            subst ha1
            rw [hvp]; exact ne_of_gt hgt

theorem appendJob_spec {s : Mem} {l : List Nat} {p : Nat}
    (hwf : WF s l) (hf : Fresh s.heap l p) :
    ∃ s1, appendJob s (some p) = .ok s1 ∧ WF s1 (l ++ [p]) ∧ SameJobs s.heap s1.heap := by
  obtain ⟨jp, hp, hpp, hpn⟩ := fresh_job hf
  have hwf0 := hwf
  obtain ⟨hnd, hseg, hfirst, hnum, hlast⟩ := hwf
  rcases List.eq_nil_or_concat l with hnil | ⟨m, b, hcon⟩
  · subst hnil
    have hn0 : s.list.numOfJobs = 0 := by simpa using hnum
    refine ⟨⟨s.heap, ⟨s.list.numOfJobs + 1, some p, some p⟩⟩, ?_, ?_, sameJobs_refl _⟩
    · simp only [appendJob, hn0, if_true, insertOnly]
      rfl
    · refine ⟨by simp, ?_, rfl, ?_, fun _ => rfl⟩
      · show Seg s.heap none [p] none
        rw [seg_cons]
        exact ⟨jp, hp, hpp, hpn, seg_nil _ _ _⟩
      · simp [hn0]
  · rw [List.concat_eq_append] at hcon
    subst hcon
    have hn0 : s.list.numOfJobs ≠ 0 := by
      rw [hnum]; simp only [List.length_append, List.length_cons, List.length_nil]
      push_cast; omega
    obtain ⟨h2, hins, hseg2, hsame⟩ := insertLast_spec hwf0 hf
    refine ⟨⟨h2, ⟨s.list.numOfJobs + 1, s.list.firstJob, some p⟩⟩, ?_, ?_, hsame⟩
    · simp only [appendJob, hn0, if_false]
      rw [hins]
      rfl
    · refine ⟨?_, hseg2, ?_, ?_, fun _ => ?_⟩
      · exact nodup_insert (m ++ [b]) [] (by simpa using hnd) (by simpa using hf.1)
      · show s.list.firstJob = _
        rw [hfirst]
        cases m <;> rfl
      · show s.list.numOfJobs + 1 = _
        rw [hnum]; simp only [List.length_append, List.length_cons, List.length_nil]
        push_cast; ring
      · show some p = _
        simp

theorem wf_not_mem_of_free {s : Mem} {l : List Nat} (hwf : WF s l) {a : Nat}
    (ha : s.heap a = none) : a ∉ l := by
  intro hm
  obtain ⟨j, hj⟩ := seg_alloc hwf.2.1 hm
  rw [ha] at hj
  cases hj

theorem wf_frame {s : Mem} {l : List Nat} (hwf : WF s l) {h1 : Heap}
    (hf : ∀ a ∈ l, h1 a = s.heap a) : WF ⟨h1, s.list⟩ l :=
  ⟨hwf.1, seg_frame hwf.2.1 hf, hwf.2.2.1, hwf.2.2.2.1, hwf.2.2.2.2⟩

/-- Allocating a job fresh from `createJob` at an unused address. -/
theorem alloc_spec {s : Mem} {l : List Nat} (hwf : WF s l) {a : Nat} (ha : s.heap a = none)
    (inp : Submission) (now : Int) :
    alloc s a (createJob inp now) = .ok ⟨store s.heap a (createJob inp now), s.list⟩ ∧
      WF ⟨store s.heap a (createJob inp now), s.list⟩ l ∧
      Fresh (store s.heap a (createJob inp now)) l a := by
  have hnot := wf_not_mem_of_free hwf ha
  refine ⟨?_, wf_frame hwf (fun b hb => store_other _ _ (fun e => hnot (e ▸ hb))), hnot, ?_⟩
  · simp [alloc, ha]
  · simp [store, createJob]

theorem alloc_eq_ok {s s1 : Mem} {a : Nat} {j : Job} (h : alloc s a j = .ok s1) :
    s.heap a = none ∧ s1 = ⟨store s.heap a j, s.list⟩ := by
  unfold alloc at h
  cases hh : s.heap a with
  | none =>
    simp only [hh, Option.isNone_none, if_true, Except.ok.injEq] at h
    exact ⟨rfl, h.symm⟩
  | some j0 =>
    simp [hh] at h

theorem wf_free {s : Mem} {l : List Nat} (hwf : WF s l) {r : Ptr}
    (hr : ∀ a, r = some a → a ∉ l) : WF ⟨free s.heap r, s.list⟩ l := by
  refine wf_frame hwf (fun b hb => ?_)
  cases r with
  | none => rfl
  | some a =>
    have : b ≠ a := fun e => hr a rfl (e ▸ hb)
    simp [free, this]

theorem bind_eq_ok {α β : Type} {x : Except Fault α} {f : α → Except Fault β} {b : β}
    (h : (x >>= f) = .ok b) : ∃ a, x = .ok a ∧ f a = .ok b := by
  cases x with
  | error e => cases h
  | ok a => exact ⟨a, rfl, h⟩

/-- A step that does not fault takes a well-formed queue to a well-formed queue
with one more job (an insertion) or its first job removed. -/
theorem step_spec {fuel : Nat} {s s1 : Mem} {l : List Nat} {op : Op} {r : Option Ptr}
    (hwf : WF s l) (h : step fuel s op = .ok (s1, r)) :
    ∃ l1, WF s1 l1 ∧
      (l1.length : Int) = l.length + (if op.isInsert then 1 else 0) -
        ((r.toList.filter Option.isSome).length : Int) ∧
      r.toList.length = (if op.isInsert then 0 else 1) := by
  cases op with
  | insertOrdered a inp now =>
    simp only [step] at h
    obtain ⟨s0, hal, h1⟩ := bind_eq_ok h
    clear h
    obtain ⟨s2, hins, h⟩ := bind_eq_ok h1
    clear h1
    obtain ⟨hfree, rfl⟩ := alloc_eq_ok hal
    obtain ⟨-, hwf0, hfresh⟩ := alloc_spec hwf hfree inp now
    simp only [pure, Except.pure, Except.ok.injEq, Prod.mk.injEq] at h
    obtain ⟨rfl, rfl⟩ := h
    rcases insertOrdered_cases fuel hwf0 hfresh with ⟨he, -⟩ | ⟨he, -⟩ | ⟨s3, l1, l2, hok, hl, hwf3, -⟩
    · rw [he] at hins; cases hins
    · rw [he] at hins; cases hins
    · rw [hok] at hins
      cases hins
      refine ⟨l1 ++ a :: l2, hwf3, ?_, rfl⟩
      simp [hl, Op.isInsert]
      ring
  | appendJob a inp now =>
    simp only [step] at h
    obtain ⟨s0, hal, h1⟩ := bind_eq_ok h
    clear h
    obtain ⟨s2, hins, h⟩ := bind_eq_ok h1
    clear h1
    obtain ⟨hfree, rfl⟩ := alloc_eq_ok hal
    obtain ⟨-, hwf0, hfresh⟩ := alloc_spec hwf hfree inp now
    simp only [pure, Except.pure, Except.ok.injEq, Prod.mk.injEq] at h
    obtain ⟨rfl, rfl⟩ := h
    obtain ⟨s3, hok, hwf3, -⟩ := appendJob_spec hwf0 hfresh
    rw [hok] at hins
    cases hins
    exact ⟨l ++ [a], hwf3, by simp [Op.isInsert], rfl⟩
  | deleteFirstJob release =>
    simp only [step] at h
    obtain ⟨⟨s2, d⟩, hdel, h1⟩ := bind_eq_ok h
    clear h
    have h := h1
    clear h1
    simp only [pure, Except.pure, Except.ok.injEq, Prod.mk.injEq] at h
    obtain ⟨rfl, rfl⟩ := h
    cases l with
    | nil =>
      have hn0 : s.list.numOfJobs = 0 := by simpa using hwf.2.2.2.1
      simp only [deleteFirstJob, hn0, if_true, Except.ok.injEq, Prod.mk.injEq] at hdel
      obtain ⟨rfl, rfl⟩ := hdel
      refine ⟨[], ?_, by simp [Op.isInsert], rfl⟩
      cases release
      · exact hwf
      · exact wf_free hwf (fun a ha => by cases ha)
    | cons a rest =>
      obtain ⟨s3, hok, hwf3, -, -⟩ := deleteFirstJob_spec hwf
      rw [hok] at hdel
      simp only [Except.ok.injEq, Prod.mk.injEq] at hdel
      obtain ⟨rfl, rfl⟩ := hdel
      refine ⟨rest, ?_, by simp [Op.isInsert], rfl⟩
      cases release
      · exact hwf3
      · refine wf_free hwf3 (fun b hb => ?_)
        cases hb
        exact (List.nodup_cons.1 hwf.1).1

theorem wf_createList : WF createList [] := by decide

theorem run_spec {fuel : Nat} {ops : List Op} :
    ∀ {s s1 : Mem} {l : List Nat} {rets : List Ptr}, WF s l →
      run fuel ops s = .ok (s1, rets) →
      ∃ l1, WF s1 l1 ∧
        (l1.length : Int) = l.length + (ops.countP Op.isInsert : Int) -
          ((rets.filter Option.isSome).length : Int) ∧
        rets.length = ops.countP (fun op => !op.isInsert) := by
  induction ops with
  | nil =>
    intro s s1 l rets hwf h
    simp only [run, Except.ok.injEq, Prod.mk.injEq] at h
    obtain ⟨rfl, rfl⟩ := h
    exact ⟨l, hwf, by simp, rfl⟩
  | cons op ops ih =>
    intro s s1 l rets hwf h
    simp only [run] at h
    obtain ⟨⟨s2, r⟩, hstep, h1⟩ := bind_eq_ok h
    clear h
    obtain ⟨⟨s3, rs⟩, hrun, h⟩ := bind_eq_ok h1
    clear h1
    simp only [pure, Except.pure, Except.ok.injEq, Prod.mk.injEq] at h
    obtain ⟨rfl, rfl⟩ := h
    obtain ⟨l2, hwf2, hlen2, hr2⟩ := step_spec hwf hstep
    obtain ⟨l3, hwf3, hlen3, hr3⟩ := ih hwf2 hrun
    refine ⟨l3, hwf3, ?_, ?_⟩
    · rw [hlen3, hlen2, List.filter_append, List.length_append, List.countP_cons]
      cases hop : op.isInsert <;> simp <;> ring
    · rw [List.length_append, hr2, hr3, List.countP_cons]
      cases hop : op.isInsert <;> simp
      omega

/-- Whenever the queue is not empty and the new job's `int` value is the first
job's, `insertOrdered` reaches `insertBetween` with the first job as `ahead`
and follows its `NULL` `prev` link. -/
theorem insertOrdered_equal_first_nullDeref {s : Mem} {hd p : Nat} {tl : List Nat}
    (fuel : Nat) (hwf : WF s (hd :: tl)) (hf : Fresh s.heap (hd :: tl) p)
    (heq : intValueAt s.heap p = intValueAt s.heap hd) :
    insertOrdered (fuel + 1) s (some p) = .error .nullDeref := by
  obtain ⟨jp, hp, -, -⟩ := fresh_job hf
  obtain ⟨jhd, hhd⟩ := seg_alloc hwf.2.1 (a := hd) (List.mem_cons_self _ _)
  have hn0 : s.list.numOfJobs ≠ 0 := by
    rw [hwf.2.2.2.1]; simp only [List.length_cons]; push_cast; omega
  have hfirst : s.list.firstJob = some hd := by simpa using hwf.2.2.1
  rw [intValueAt_eq hp, intValueAt_eq hhd] at heq
  have hscan : scan s.heap (intValue jp) (fuel + 1) (some hd) (intValue jhd) =
      .ok (some hd, intValue jhd) := by
    rw [scan, if_neg (by rw [heq]; exact lt_irrefl _)]
    rfl
  rw [insertOrdered_nonempty hn0 hfirst hhd hp, if_neg (by rw [heq]; exact lt_irrefl _),
    hscan, bind_ok]
  simp only [if_pos (le_of_eq heq)]
  rw [insertBetween_head hwf hf]
  rfl

/-- In every reachable state `firstJob` is `NULL` exactly when `numOfJobs` is
0. -/
theorem firstJob_null_iff {s : Mem} (h : Reachable s) :
    s.list.firstJob = none ↔ s.list.numOfJobs = 0 := by
  obtain ⟨fuel, ops, rets, hrun⟩ := h
  obtain ⟨l, hwf, -, -⟩ := run_spec wf_createList hrun
  rw [hwf.2.2.1, hwf.2.2.2.1]
  cases l <;> simp
  omega

/-! ## One `insertOrdered` step -/

theorem intValueAt_eq_toInt (h : Heap) (a : Nat) : intValueAt h a = toInt (dueTimeAt h a) := by
  unfold intValueAt dueTimeAt
  cases h a <;> simp [intValue, dueTime, toInt]

/-- What a completed `insertOrdered` step did to a well-formed queue. -/
theorem step_insertOrdered_spec {fuel : Nat} {s s1 : Mem} {l : List Nat} {p : Nat}
    {inp : Submission} {now : Int} {r : Option Ptr}
    (hwf : WF s l) (h : step fuel s (.insertOrdered p inp now) = .ok (s1, r)) :
    ∃ l1 l2, l = l1 ++ l2 ∧ WF s1 (l1 ++ p :: l2) ∧ p ∉ l ∧
      intValueAt s1.heap p = toInt (now + inp.startTime) ∧
      dueTimeAt s1.heap p = now + inp.startTime ∧
      (∀ a ∈ l, intValueAt s1.heap a = intValueAt s.heap a) ∧
      (∀ a ∈ l, dueTimeAt s1.heap a = dueTimeAt s.heap a) ∧
      (∀ a ∈ l1, intValueAt s.heap a < toInt (now + inp.startTime)) ∧
      (∀ a, l2.head? = some a → toInt (now + inp.startTime) ≤ intValueAt s.heap a) ∧
      s.heap p = none ∧ (∀ b, b ≠ p → (s.heap b ≠ none → s1.heap b ≠ none)) := by
  simp only [step] at h
  obtain ⟨s0, hal, h1⟩ := bind_eq_ok h
  clear h
  obtain ⟨s2, hins, h⟩ := bind_eq_ok h1
  clear h1
  obtain ⟨hfree, rfl⟩ := alloc_eq_ok hal
  obtain ⟨-, hwf0, hfresh⟩ := alloc_spec hwf hfree inp now
  simp only [pure, Except.pure, Except.ok.injEq, Prod.mk.injEq] at h
  obtain ⟨rfl, rfl⟩ := h
  have hpnot := wf_not_mem_of_free hwf hfree
  have hvp : intValueAt (store s.heap p (createJob inp now)) p = toInt (now + inp.startTime) := by
    simp [intValueAt, store, intValue, createJob]
  have hdp : dueTimeAt (store s.heap p (createJob inp now)) p = now + inp.startTime := by
    simp [dueTimeAt, store, dueTime, createJob]
  have hframe : ∀ a ∈ l, store s.heap p (createJob inp now) a = s.heap a :=
    fun a ha => store_other _ _ (fun e => hpnot (e ▸ ha))
  have hvq : ∀ a ∈ l, intValueAt (store s.heap p (createJob inp now)) a = intValueAt s.heap a := by
    intro a ha; simp [intValueAt, hframe a ha]
  have hdq : ∀ a ∈ l, dueTimeAt (store s.heap p (createJob inp now)) a = dueTimeAt s.heap a := by
    intro a ha; simp [dueTimeAt, hframe a ha]
  rcases insertOrdered_cases fuel hwf0 hfresh with ⟨he, -⟩ | ⟨he, -⟩ |
      ⟨s3, l1, l2, hok, hl, hwf3, hsmall, hbig, -, hsame⟩
  · rw [he] at hins; cases hins
  · rw [he] at hins; cases hins
  · rw [hok] at hins
    cases hins
    refine ⟨l1, l2, hl, hwf3, hpnot, ?_, ?_, ?_, ?_, ?_, ?_, hfree, ?_⟩
    · rw [sameJobs_intValueAt hsame]; exact hvp
    · rw [sameJobs_dueTimeAt hsame]; exact hdp
    · intro a ha; rw [sameJobs_intValueAt hsame]; exact hvq a ha
    · intro a ha; rw [sameJobs_dueTimeAt hsame]; exact hdq a ha
    · intro a ha
      have := hsmall a ha
      rwa [hvp, hvq a (by rw [hl]; exact List.mem_append_left _ ha)] at this
    · intro a ha
      have := hbig a ha
      have hmem : a ∈ l := by
        rw [hl]; exact List.mem_append_right _ (List.mem_of_mem_head? ha)
      rwa [hvp, hvq a hmem] at this
    · intro b hb hsome
      have h1 : Option.map payload (s2.heap b) =
          Option.map payload (store s.heap p (createJob inp now) b) := hsame b
      rw [store_other _ _ hb] at h1
      intro hnone
      rw [hnone] at h1
      cases hsb : s.heap b with
      | none => exact hsome hsb
      | some j => rw [hsb] at h1; cases h1

/-- With fuel for `numOfJobs` evaluations of the loop condition, `insertOrdered`
of a fresh job whose `int` value is not the first queued job's completes. -/
theorem step_insertOrdered_ok {fuel : Nat} {s : Mem} {l : List Nat} {p : Nat}
    (inp : Submission) (now : Int)
    (hwf : WF s l) (hfree : s.heap p = none) (hfuel : l.length ≤ fuel)
    (hne : ∀ hd, l.head? = some hd → toInt (now + inp.startTime) ≠ intValueAt s.heap hd) :
    ∃ s1, step fuel s (.insertOrdered p inp now) = .ok (s1, none) := by
  obtain ⟨hal, hwf0, hfresh⟩ := alloc_spec hwf hfree inp now
  have hpnot := wf_not_mem_of_free hwf hfree
  have hvp : intValueAt (store s.heap p (createJob inp now)) p = toInt (now + inp.startTime) := by
    simp [intValueAt, store, intValue, createJob]
  have hvq : ∀ a ∈ l, intValueAt (store s.heap p (createJob inp now)) a = intValueAt s.heap a := by
    intro a ha
    have : store s.heap p (createJob inp now) a = s.heap a :=
      store_other _ _ (fun e => hpnot (e ▸ ha))
    simp [intValueAt, this]
  rcases insertOrdered_cases fuel hwf0 hfresh with ⟨-, hlt⟩ | ⟨-, hd, hhd, heq⟩ |
      ⟨s1, l1, l2, hok, -⟩
  · exact absurd hfuel (not_le.2 hlt)
  · exfalso
    have hmem : hd ∈ l := List.mem_of_mem_head? hhd
    exact hne hd hhd (by rw [← hvp, heq]; exact hvq hd hmem)
  · refine ⟨s1, ?_⟩
    simp only [step]
    rw [hal, bind_ok, hok]
    rfl

/-- The jobs of the old queue that have the new job's due time come after it. -/
theorem equal_due_after {s : Mem} {l l1 l2 : List Nat} {v : Int} (hl : l = l1 ++ l2)
    (hsmall : ∀ a ∈ l1, intValueAt s.heap a < toInt v) :
    ∀ a ∈ l, dueTimeAt s.heap a = v → a ∈ l2 := by
  intro a ha hdue
  rw [hl] at ha
  rcases List.mem_append.1 ha with h1 | h2
  · exfalso
    have hlt := hsmall a h1
    rw [intValueAt_eq_toInt, hdue] at hlt
    exact lt_irrefl _ hlt
  · exact h2

/-- A completed `insertOrdered` step keeps a queue sorted by `int` value
sorted. -/
theorem step_insertOrdered_sortedInt {fuel : Nat} {s s1 : Mem} {l : List Nat} {p : Nat}
    {inp : Submission} {now : Int} {r : Option Ptr}
    (hwf : WF s l) (hs : SortedInt s.heap l)
    (h : step fuel s (.insertOrdered p inp now) = .ok (s1, r)) :
    ∃ l1, WF s1 l1 ∧ SortedInt s1.heap l1 := by
  obtain ⟨l1, l2, hl, hwf1, hpnot, hvp, -, hvq, -, hsmall, hbig, -⟩ :=
    step_insertOrdered_spec hwf h
  refine ⟨l1 ++ p :: l2, hwf1, ?_⟩
  subst hl
  unfold SortedInt at hs ⊢
  rw [List.pairwise_append] at hs ⊢
  obtain ⟨hs1, hs2, hs12⟩ := hs
  have hv1 : ∀ a ∈ l1, intValueAt s1.heap a = intValueAt s.heap a :=
    fun a ha => hvq a (List.mem_append_left _ ha)
  have hv2 : ∀ a ∈ l2, intValueAt s1.heap a = intValueAt s.heap a :=
    fun a ha => hvq a (List.mem_append_right _ ha)
  have hbig2 : ∀ a ∈ l2, toInt (now + inp.startTime) ≤ intValueAt s.heap a := by
    intro a ha
    cases l2 with
    | nil => cases ha
    | cons b t =>
      have hb := hbig b rfl
      rcases List.mem_cons.1 ha with rfl | hm
      · exact hb
      · exact le_trans hb (List.rel_of_pairwise_cons hs2 hm)
  refine ⟨?_, ?_, ?_⟩
  · exact hs1.imp_of_mem (fun ha hb hab => by rw [hv1 _ ha, hv1 _ hb]; exact hab)
  · rw [List.pairwise_cons]
    refine ⟨fun a ha => ?_, hs2.imp_of_mem (fun ha hb hab => by rw [hv2 _ ha, hv2 _ hb]; exact hab)⟩
    rw [hvp, hv2 a ha]; exact hbig2 a ha
  · intro a ha b hb
    rcases List.mem_cons.1 hb with rfl | hm
    · rw [hv1 a ha, hvp]; exact le_of_lt (hsmall a ha)
    · rw [hv1 a ha, hv2 b hm]; exact hs12 a ha b hm

/-- Insertions only: the old queue keeps its order, and every job inserted
later with the due time of a job already there ends up before it. -/
theorem run_inserts_lifo {fuel : Nat} (ops : List Op) :
    ∀ {s s1 : Mem} {l : List Nat} {rets : List Ptr},
      (∀ op ∈ ops, op.isInsertOrdered = true) → WF s l → run fuel ops s = .ok (s1, rets) →
      ∃ tr, WF s1 tr ∧ List.Sublist l tr ∧ (∀ a ∈ l, dueTimeAt s1.heap a = dueTimeAt s.heap a) ∧
        (∀ a ∈ l, ∀ (j a2 : Nat) (inp2 : Submission) (now2 : Int),
          ops[j]? = some (Op.insertOrdered a2 inp2 now2) →
          dueTimeAt s.heap a = now2 + inp2.startTime → List.Sublist [a2, a] tr) ∧
        (∀ (i j a1 : Nat) (inp1 : Submission) (now1 : Int) (a2 : Nat) (inp2 : Submission)
            (now2 : Int), i < j →
          ops[i]? = some (Op.insertOrdered a1 inp1 now1) →
          ops[j]? = some (Op.insertOrdered a2 inp2 now2) →
          now1 + inp1.startTime = now2 + inp2.startTime → List.Sublist [a2, a1] tr) := by
  induction ops with
  | nil =>
    intro s s1 l rets _ hwf h
    simp only [run, Except.ok.injEq, Prod.mk.injEq] at h
    obtain ⟨rfl, rfl⟩ := h
    refine ⟨l, hwf, List.Sublist.refl _, fun _ _ => rfl, ?_, ?_⟩
    · intro a _ j a2 inp2 now2 hj; simp at hj
    · intro i j a1 inp1 now1 a2 inp2 now2 _ hi; simp at hi
  | cons op ops ih =>
    intro s s1 l rets hins hwf h
    have hop := hins op (List.mem_cons_self _ _)
    have hrest : ∀ o ∈ ops, o.isInsertOrdered = true :=
      fun o ho => hins o (List.mem_cons_of_mem _ ho)
    simp only [run] at h
    obtain ⟨⟨s2, r⟩, hstep, h1⟩ := bind_eq_ok h
    clear h
    obtain ⟨⟨s3, rs⟩, hrun, h⟩ := bind_eq_ok h1
    clear h1
    simp only [pure, Except.pure, Except.ok.injEq, Prod.mk.injEq] at h
    obtain ⟨rfl, rfl⟩ := h
    cases op with
    | appendJob a inp now => cases hop
    | deleteFirstJob rel => cases hop
    | insertOrdered a0 inp0 now0 =>
      obtain ⟨l1, l2, hl, hwf2, -, -, hd0, -, hdq, hsmall, -⟩ := step_insertOrdered_spec hwf hstep
      obtain ⟨tr, hwf3, hsub, hdue, hold, hpairs⟩ := ih hrest hwf2 hrun
      have hsub0 : List.Sublist l (l1 ++ a0 :: l2) := by
        rw [hl]
        exact List.Sublist.append (List.Sublist.refl l1) (List.sublist_cons_self a0 l2)
      have hmem0 : ∀ a ∈ l, a ∈ l1 ++ a0 :: l2 := fun a ha => hsub0.subset ha
      refine ⟨tr, hwf3, hsub0.trans hsub, ?_, ?_, ?_⟩
      · intro a ha
        rw [hdue a (hmem0 a ha), hdq a ha]
      · intro a ha j a2 inp2 now2 hj heq
        cases j with
        | zero =>
          simp only [List.getElem?_cons_zero, Option.some.injEq, Op.insertOrdered.injEq] at hj
          obtain ⟨rfl, rfl, rfl⟩ := hj
          have hin2 : a ∈ l2 := equal_due_after hl hsmall a ha heq
          have h1 : List.Sublist [a0, a] (a0 :: l2) :=
            List.Sublist.cons₂ a0 (List.singleton_sublist.2 hin2)
          exact (List.sublist_append_of_sublist_right h1).trans hsub
        | succ j =>
          rw [List.getElem?_cons_succ] at hj
          exact hold a (hmem0 a ha) j a2 inp2 now2 hj (by rw [hdq a ha]; exact heq)
      · intro i j a1 inp1 now1 a2 inp2 now2 hij hi hj heq
        cases j with
        | zero => exact absurd hij (Nat.not_lt_zero _)
        | succ j =>
          rw [List.getElem?_cons_succ] at hj
          cases i with
          | zero =>
            simp only [List.getElem?_cons_zero, Option.some.injEq, Op.insertOrdered.injEq] at hi
            obtain ⟨rfl, rfl, rfl⟩ := hi
            exact hold a0 (by simp) j a2 inp2 now2 hj (by rw [hd0]; exact heq)
          | succ i =>
            rw [List.getElem?_cons_succ] at hi
            exact hpairs i j a1 inp1 now1 a2 inp2 now2 (Nat.lt_of_succ_lt_succ hij) hi hj heq


/-! ## Sortedness while no due time wraps -/

theorem toInt_of_fitsInt {x : Int} (h : fitsInt x) : toInt x = x := by
  obtain ⟨h1, h2⟩ := h
  unfold toInt
  omega

theorem sortedDue_of_sortedInt {h : Heap} {l : List Nat}
    (hfit : ∀ a ∈ l, fitsInt (dueTimeAt h a)) (hs : SortedInt h l) : SortedDue h l := by
  refine List.Pairwise.imp_of_mem (fun {a b} ha hb hab => ?_) hs
  rw [intValueAt_eq_toInt, intValueAt_eq_toInt, toInt_of_fitsInt (hfit a ha),
    toInt_of_fitsInt (hfit b hb)] at hab
  exact hab

theorem sortedInt_of_sortedDue {h : Heap} {l : List Nat}
    (hfit : ∀ a ∈ l, fitsInt (dueTimeAt h a)) (hs : SortedDue h l) : SortedInt h l := by
  refine List.Pairwise.imp_of_mem (fun {a b} ha hb hab => ?_) hs
  rw [intValueAt_eq_toInt, intValueAt_eq_toInt, toInt_of_fitsInt (hfit a ha),
    toInt_of_fitsInt (hfit b hb)]
  exact hab

theorem wf_unique {s : Mem} {l l1 : List Nat} (h : WF s l) (h1 : WF s l1) : l = l1 := by
  have e := printForward_wf h
  rw [printForward_wf h1] at e
  exact (Except.ok.inj e).symm

/-- After insertions only, the queue is in non-decreasing order of the `int`
values `insertOrdered` compares. -/
theorem run_inserts_sortedInt {fuel : Nat} (ops : List Op) :
    ∀ {s s1 : Mem} {l : List Nat} {rets : List Ptr},
      (∀ op ∈ ops, op.isInsertOrdered = true) → WF s l → SortedInt s.heap l →
      run fuel ops s = .ok (s1, rets) → ∃ tr, WF s1 tr ∧ SortedInt s1.heap tr := by
  induction ops with
  | nil =>
    intro s s1 l rets _ hwf hs h
    simp only [run, Except.ok.injEq, Prod.mk.injEq] at h
    obtain ⟨rfl, rfl⟩ := h
    exact ⟨l, hwf, hs⟩
  | cons op ops ih =>
    intro s s1 l rets hins hwf hs h
    have hop := hins op (List.mem_cons_self _ _)
    have hrest : ∀ o ∈ ops, o.isInsertOrdered = true :=
      fun o ho => hins o (List.mem_cons_of_mem _ ho)
    simp only [run] at h
    obtain ⟨⟨s2, r⟩, hstep, h1⟩ := bind_eq_ok h
    clear h
    obtain ⟨⟨s3, rs⟩, hrun, h⟩ := bind_eq_ok h1
    clear h1
    simp only [pure, Except.pure, Except.ok.injEq, Prod.mk.injEq] at h
    obtain ⟨rfl, rfl⟩ := h
    cases op with
    | appendJob a inp now => cases hop
    | deleteFirstJob rel => cases hop
    | insertOrdered a0 inp0 now0 =>
      obtain ⟨l2, hwf2, hs2⟩ := step_insertOrdered_sortedInt hwf hs hstep
      exact ih hrest hwf2 hs2 hrun

/-- A completed `deleteFirstJob` step keeps a queue sorted by `int` value
sorted. -/
theorem step_deleteFirstJob_sortedInt {fuel : Nat} {s s1 : Mem} {l : List Nat}
    {release : Bool} {r : Option Ptr} (hwf : WF s l) (hs : SortedInt s.heap l)
    (h : step fuel s (.deleteFirstJob release) = .ok (s1, r)) :
    ∃ l1, WF s1 l1 ∧ SortedInt s1.heap l1 := by
  obtain ⟨l1, hwf1, -, -⟩ := step_spec hwf h
  refine ⟨l1, hwf1, ?_⟩
  simp only [step] at h
  obtain ⟨⟨s2, d⟩, hdel, h1⟩ := bind_eq_ok h
  clear h
  simp only [pure, Except.pure, Except.ok.injEq, Prod.mk.injEq] at h1
  obtain ⟨rfl, rfl⟩ := h1
  cases l with
  | nil =>
    have hn0 : s.list.numOfJobs = 0 := by simpa using hwf.2.2.2.1
    simp only [deleteFirstJob, hn0, if_true, Except.ok.injEq, Prod.mk.injEq] at hdel
    obtain ⟨rfl, rfl⟩ := hdel
    have hl1 : l1 = [] := by
      cases release
      · exact wf_unique hwf1 hwf
      · exact wf_unique hwf1 (wf_free hwf (fun a ha => by cases ha))
    subst hl1
    exact List.Pairwise.nil
  | cons a rest =>
    obtain ⟨s3, hok, hwf3, hsame, -⟩ := deleteFirstJob_spec hwf
    rw [hok] at hdel
    simp only [Except.ok.injEq, Prod.mk.injEq] at hdel
    obtain ⟨rfl, rfl⟩ := hdel
    have hnot : a ∉ rest := (List.nodup_cons.1 hwf.1).1
    have hl1 : l1 = rest := by
      cases release
      · exact wf_unique hwf1 hwf3
      · exact wf_unique hwf1 (wf_free hwf3 (fun b hb => by cases hb; exact hnot))
    subst hl1
    have hval : ∀ b ∈ l1, intValueAt
        (if release = true then ({ s3 with heap := free s3.heap (some a) } : Mem) else s3).heap b =
        intValueAt s.heap b := by
      intro b hb
      have hba : b ≠ a := fun e => hnot (e ▸ hb)
      rw [← sameJobs_intValueAt hsame b]
      cases release
      · rfl
      · simp [intValueAt, free, hba]
    refine List.Pairwise.imp_of_mem (fun {x y} hx hy hxy => ?_) (List.Pairwise.of_cons hs)
    rw [hval x hx, hval y hy]
    exact hxy

/-- Without `appendJob`, the queue stays in non-decreasing order of the `int`
values `insertOrdered` compares. -/
theorem run_noAppend_sortedInt {fuel : Nat} (ops : List Op) :
    ∀ {s s1 : Mem} {l : List Nat} {rets : List Ptr},
      (∀ op ∈ ops, op.isAppendJob = false) → WF s l → SortedInt s.heap l →
      run fuel ops s = .ok (s1, rets) → ∃ tr, WF s1 tr ∧ SortedInt s1.heap tr := by
  induction ops with
  | nil =>
    intro s s1 l rets _ hwf hs h
    simp only [run, Except.ok.injEq, Prod.mk.injEq] at h
    obtain ⟨rfl, rfl⟩ := h
    exact ⟨l, hwf, hs⟩
  | cons op ops ih =>
    intro s s1 l rets hins hwf hs h
    have hop := hins op (List.mem_cons_self _ _)
    have hrest : ∀ o ∈ ops, o.isAppendJob = false :=
      fun o ho => hins o (List.mem_cons_of_mem _ ho)
    simp only [run] at h
    obtain ⟨⟨s2, r⟩, hstep, h1⟩ := bind_eq_ok h
    clear h
    obtain ⟨⟨s3, rs⟩, hrun, h⟩ := bind_eq_ok h1
    clear h1
    simp only [pure, Except.pure, Except.ok.injEq, Prod.mk.injEq] at h
    obtain ⟨rfl, rfl⟩ := h
    cases op with
    | appendJob a inp now => cases hop
    | deleteFirstJob rel =>
      obtain ⟨l2, hwf2, hs2⟩ := step_deleteFirstJob_sortedInt hwf hs hstep
      exact ih hrest hwf2 hs2 hrun
    | insertOrdered a0 inp0 now0 =>
      obtain ⟨l2, hwf2, hs2⟩ := step_insertOrdered_sortedInt hwf hs hstep
      exact ih hrest hwf2 hs2 hrun

/-- After insertions only from `createList`, the forward traversal is in
non-decreasing order of `int` value, and of due time when the due times of the
queued jobs are values an `int` holds. -/
theorem insertOrdered_sorted_of_fits (fuel : Nat) (ops : List Op) (s : Mem) (rets : List Ptr)
    (hins : ∀ op ∈ ops, op.isInsertOrdered = true)
    (h : run fuel ops createList = .ok (s, rets)) :
    ∃ tr, printForward s = .ok tr ∧ SortedInt s.heap tr ∧
      ((∀ a ∈ tr, fitsInt (dueTimeAt s.heap a)) → SortedDue s.heap tr) := by
  obtain ⟨tr, hwf, hs⟩ := run_inserts_sortedInt ops hins wf_createList List.Pairwise.nil h
  exact ⟨tr, printForward_wf hwf, hs, fun hfit => sortedDue_of_sortedInt hfit hs⟩

/-- One iteration of the dispatcher on a well-formed queue. -/
theorem dispatch_cases (s : Mem) (l : List Nat) (curSysTime : Int) (hwf : WF s l) :
    ∃ s1 out, dispatch s curSysTime = .ok (s1, out) ∧
      ((∃ jobPtr, out = .execute jobPtr) ↔
        ∃ a, l.head? = some a ∧ dueTimeAt s.heap a ≤ curSysTime) ∧
      (∀ jobPtr, out = .execute jobPtr →
        ∃ a rest, l = a :: rest ∧ jobPtr = some a ∧ WF s1 rest ∧
          printForward s1 = .ok rest ∧ a ∉ rest ∧ SameJobs s.heap s1.heap) ∧
      (out = .sleep → s1 = s) := by
  cases l with
  | nil =>
    have hfirst : s.list.firstJob = none := hwf.2.2.1
    refine ⟨s, .sleep, ?_, ?_, ?_, fun _ => rfl⟩
    · simp [dispatch, hfirst]
    · constructor
      · rintro ⟨jobPtr, h⟩; cases h
      · rintro ⟨a, h, -⟩; cases h
    · intro jobPtr h; cases h
  | cons a rest =>
    have hfirst : s.list.firstJob = some a := by simpa using hwf.2.2.1
    obtain ⟨ja, ha⟩ := seg_alloc hwf.2.1 (a := a) (List.mem_cons_self _ _)
    have hdue : dueTimeAt s.heap a = ja.submissionTime + ja.startTime := by
      rw [dueTimeAt_eq ha]; rfl
    by_cases hnow : curSysTime ≥ ja.submissionTime + ja.startTime
    · obtain ⟨s1, hdel, hwf1, hsame, -⟩ := deleteFirstJob_spec hwf
      refine ⟨s1, .execute (some a), ?_, ?_, ?_, fun h => by cases h⟩
      · simp only [dispatch, hfirst]
        rw [deref_ok ha, bind_ok, if_pos hnow, hdel]
        rfl
      · constructor
        · intro _
          exact ⟨a, rfl, by rw [hdue]; exact hnow⟩
        · intro _
          exact ⟨some a, rfl⟩
      · intro jobPtr h
        cases h
        exact ⟨a, rest, rfl, rfl, hwf1, printForward_wf hwf1, (List.nodup_cons.1 hwf.1).1, hsame⟩
    · refine ⟨s, .sleep, ?_, ?_, ?_, fun _ => rfl⟩
      · simp only [dispatch, hfirst]
        rw [deref_ok ha, bind_ok, if_neg hnow]
        rfl
      · constructor
        · rintro ⟨jobPtr, h⟩; cases h
        · rintro ⟨b, hb, hle⟩
          simp only [List.head?_cons, Option.some.injEq] at hb
          subst hb
          rw [hdue] at hle
          exact absurd hle hnow
      · intro jobPtr h; cases h


/-! ## The dispatch order while no due time wraps -/

theorem dueTimeAt_free {h : Heap} {a b : Nat} (hne : b ≠ a) :
    dueTimeAt (free h (some a)) b = dueTimeAt h b := by
  simp [dueTimeAt, free, hne]

theorem sameJobs_alloc {h h1 : Heap} (hs : SameJobs h h1) {b : Nat} (hb : h b ≠ none) :
    h1 b ≠ none := by
  intro hnone
  have h2 := hs b
  rw [hnone] at h2
  cases hhb : h b with
  | none => exact hb hhb
  | some j => rw [hhb] at h2; cases h2

theorem sysInv_init (t0 : Int) : SysInv (System.init t0) [] where
  wf := wf_createList
  sorted := List.Pairwise.nil
  fits := fun a ha => by cases ha
  later := fun a ha => by cases ha
  past := fun j hj => by cases hj
  order := List.Pairwise.nil
  runNodup := List.nodup_nil
  runOut := fun a ha => by cases ha

theorem sysInv_submit {fuel : Nat} {sys sys1 : System} {l : List Nat} {a : Nat}
    {inp : Submission} (inv : SysInv sys l) (hpos : 0 < inp.startTime)
    (hfit : fitsInt (sys.clock + inp.startTime))
    (h : sys.step fuel (.submit a inp) = .ok sys1) :
    (∃ l1, SysInv sys1 l1) ∧ sys1.clock = sys.clock := by
  simp only [System.step] at h
  obtain ⟨⟨s1, r⟩, hstep, h1⟩ := bind_eq_ok h
  clear h
  simp only [pure, Except.pure, Except.ok.injEq] at h1
  subst h1
  obtain ⟨l1, l2, hl, hwf1, hpnot, -, hdp, -, hdq, -, -, hfree, halloc⟩ :=
    step_insertOrdered_spec inv.wf hstep
  obtain ⟨l3, hwf3, hs3⟩ := step_insertOrdered_sortedInt inv.wf
    (sortedInt_of_sortedDue inv.fits inv.sorted) hstep
  have hl3 : l3 = l1 ++ a :: l2 := wf_unique hwf3 hwf1
  subst hl3
  have hold : ∀ b ∈ l1 ++ a :: l2, b = a ∨ b ∈ l := by
    intro b hb
    rcases List.mem_append.1 hb with h1 | h2
    · right; rw [hl]; exact List.mem_append_left _ h1
    · rcases List.mem_cons.1 h2 with h3 | h3
      · left; exact h3
      · right; rw [hl]; exact List.mem_append_right _ h3
  have hfits : ∀ b ∈ l1 ++ a :: l2, fitsInt (dueTimeAt s1.heap b) := by
    intro b hb
    rcases hold b hb with rfl | hm
    · rw [hdp]; exact hfit
    · rw [hdq b hm]; exact inv.fits b hm
  refine ⟨⟨l1 ++ a :: l2, ?_⟩, rfl⟩
  refine ⟨hwf1, sortedDue_of_sortedInt hfits hs3, hfits, ?_, inv.past, inv.order,
    inv.runNodup, ?_⟩
  · intro b hb j hj
    show dueTime j ≤ dueTimeAt s1.heap b
    rcases hold b hb with rfl | hm
    · rw [hdp]
      have := inv.past j hj
      omega
    · rw [hdq b hm]; exact inv.later b hm j hj
  · intro c hc
    obtain ⟨hcl, hcal⟩ := inv.runOut c hc
    have hca : c ≠ a := fun e => hcal (e ▸ hfree)
    refine ⟨fun hm => ?_, halloc c hca hcal⟩
    rcases hold c hm with h1 | h1
    · exact hca h1
    · exact hcl h1

theorem sysInv_cancel {fuel : Nat} {sys sys1 : System} {l : List Nat}
    (inv : SysInv sys l) (h : sys.step fuel .cancel = .ok sys1) :
    (∃ l1, SysInv sys1 l1) ∧ sys1.clock = sys.clock := by
  simp only [System.step] at h
  obtain ⟨⟨s1, jobPtr⟩, hdel, h1⟩ := bind_eq_ok h
  clear h
  obtain ⟨j, hderef, h2⟩ := bind_eq_ok h1
  clear h1
  simp only [pure, Except.pure, Except.ok.injEq] at h2
  subst h2
  cases l with
  | nil =>
    exfalso
    have hn0 : sys.mem.list.numOfJobs = 0 := by simpa using inv.wf.2.2.2.1
    simp only [deleteFirstJob, hn0, if_true, Except.ok.injEq, Prod.mk.injEq] at hdel
    obtain ⟨-, rfl⟩ := hdel
    cases hderef
  | cons a rest =>
    obtain ⟨s2, hok, hwf2, hsame, -⟩ := deleteFirstJob_spec inv.wf
    rw [hok] at hdel
    simp only [Except.ok.injEq, Prod.mk.injEq] at hdel
    obtain ⟨rfl, rfl⟩ := hdel
    have hnd := List.nodup_cons.1 inv.wf.1
    have hne : ∀ b ∈ rest, b ≠ a := fun b hb e => hnd.1 (e ▸ hb)
    have hdue : ∀ b ∈ rest, dueTimeAt (free s2.heap (some a)) b = dueTimeAt sys.mem.heap b := by
      intro b hb
      rw [dueTimeAt_free (hne b hb), sameJobs_dueTimeAt hsame]
    refine ⟨⟨rest, ?_⟩, rfl⟩
    refine ⟨wf_free hwf2 (fun b hb => by cases hb; exact hnd.1), ?_, ?_, ?_, inv.past,
      inv.order, inv.runNodup, ?_⟩
    · refine List.Pairwise.imp_of_mem (fun {x y} hx hy hxy => ?_)
        (List.Pairwise.of_cons inv.sorted)
      show dueTimeAt (free s2.heap (some a)) x ≤ dueTimeAt (free s2.heap (some a)) y
      rw [hdue x hx, hdue y hy]; exact hxy
    · intro b hb
      show fitsInt (dueTimeAt (free s2.heap (some a)) b)
      rw [hdue b hb]; exact inv.fits b (List.mem_cons_of_mem _ hb)
    · intro b hb j hj
      show dueTime j ≤ dueTimeAt (free s2.heap (some a)) b
      rw [hdue b hb]; exact inv.later b (List.mem_cons_of_mem _ hb) j hj
    · intro c hc
      obtain ⟨hcl, hcal⟩ := inv.runOut c hc
      have hca : c ≠ a := fun e => hcl (e ▸ List.mem_cons_self _ _)
      refine ⟨fun hm => hcl (List.mem_cons_of_mem _ hm), ?_⟩
      show free s2.heap (some a) c ≠ none
      have : free s2.heap (some a) c = s2.heap c := by simp [free, hca]
      rw [this]
      exact sameJobs_alloc hsame hcal

theorem sysInv_dispatch {fuel : Nat} {sys sys1 : System} {l : List Nat}
    (inv : SysInv sys l) (h : sys.step fuel .dispatch = .ok sys1) :
    (∃ l1, SysInv sys1 l1) ∧ sys1.clock = sys.clock := by
  simp only [System.step] at h
  obtain ⟨⟨s1, out⟩, hdis, h1⟩ := bind_eq_ok h
  clear h
  obtain ⟨s2, out2, hdis2, hiff, hexec, hsleep⟩ := dispatch_cases sys.mem l sys.clock inv.wf
  rw [hdis2] at hdis
  simp only [Except.ok.injEq, Prod.mk.injEq] at hdis
  obtain ⟨rfl, rfl⟩ := hdis
  cases out2 with
  | sleep =>
    simp only [pure, Except.pure, Except.ok.injEq] at h1
    subst h1
    have hs := hsleep rfl
    subst hs
    exact ⟨⟨l, inv⟩, rfl⟩
  | execute jobPtr =>
    obtain ⟨j, hderef, h2⟩ := bind_eq_ok h1
    clear h1
    simp only [pure, Except.pure, Except.ok.injEq] at h2
    subst h2
    obtain ⟨a, rest, hl, hptr, hwf2, -, hnot, hsame⟩ := hexec jobPtr rfl
    subst hl
    subst hptr
    obtain ⟨b, hb, hdueb⟩ := hiff.1 ⟨_, rfl⟩
    simp only [List.head?_cons, Option.some.injEq] at hb
    subst hb
    have hja : s2.heap a = some j := by
      unfold deref at hderef
      cases hh : s2.heap a with
      | none => simp [hh] at hderef
      | some j0 =>
        simp only [hh, Except.ok.injEq] at hderef
        rw [hderef]
    have hdj : dueTime j = dueTimeAt sys.mem.heap a := by
      rw [← sameJobs_dueTimeAt hsame, dueTimeAt_eq hja]
    have hdue : ∀ c, dueTimeAt s2.heap c = dueTimeAt sys.mem.heap c :=
      fun c => sameJobs_dueTimeAt hsame c
    refine ⟨⟨rest, ?_⟩, rfl⟩
    refine ⟨hwf2, ?_, ?_, ?_, ?_, ?_, ?_, ?_⟩
    · refine List.Pairwise.imp_of_mem (fun {x y} _ _ hxy => ?_)
        (List.Pairwise.of_cons inv.sorted)
      show dueTimeAt s2.heap x ≤ dueTimeAt s2.heap y
      rw [hdue x, hdue y]; exact hxy
    · intro c hc
      show fitsInt (dueTimeAt s2.heap c)
      rw [hdue c]; exact inv.fits c (List.mem_cons_of_mem _ hc)
    · intro c hc k hk
      show dueTime k ≤ dueTimeAt s2.heap c
      rw [hdue c]
      rcases List.mem_append.1 hk with h1 | h1
      · exact inv.later c (List.mem_cons_of_mem _ hc) k h1
      · simp only [List.mem_singleton] at h1
        subst h1
        rw [hdj]
        exact List.rel_of_pairwise_cons inv.sorted hc
    · intro k hk
      show dueTime k ≤ sys.clock
      rcases List.mem_append.1 hk with h1 | h1
      · exact inv.past k h1
      · simp only [List.mem_singleton] at h1
        subst h1
        rw [hdj]; exact hdueb
    · show (sys.started ++ [j]).Pairwise _
      rw [List.pairwise_append]
      refine ⟨inv.order, List.pairwise_singleton _ _, ?_⟩
      intro k hk k2 hk2
      simp only [List.mem_singleton] at hk2
      subst hk2
      rw [hdj]
      exact inv.later a (List.mem_cons_self _ _) k hk
    · show (sys.running ++ [a]).Nodup
      rw [List.nodup_append]
      refine ⟨inv.runNodup, List.nodup_singleton _, ?_⟩
      intro c hc hc2
      simp only [List.mem_singleton] at hc2
      subst hc2
      exact (inv.runOut c hc).1 (List.mem_cons_self _ _)
    · intro c hc
      show c ∉ rest ∧ s2.heap c ≠ none
      rcases List.mem_append.1 hc with h1 | h1
      · obtain ⟨hcl, hcal⟩ := inv.runOut c h1
        exact ⟨fun hm => hcl (List.mem_cons_of_mem _ hm), sameJobs_alloc hsame hcal⟩
      · simp only [Option.toList, List.mem_singleton] at h1
        subst h1
        refine ⟨hnot, ?_⟩
        rw [hja]; exact fun e => by cases e

theorem sysInv_finish {fuel : Nat} {sys sys1 : System} {l : List Nat} {a : Nat}
    (inv : SysInv sys l) (h : sys.step fuel (.finish a) = .ok sys1) :
    (∃ l1, SysInv sys1 l1) ∧ sys1.clock = sys.clock := by
  simp only [System.step] at h
  by_cases ha : a ∈ sys.running
  · rw [if_pos ha] at h
    simp only [pure, Except.pure, Except.ok.injEq] at h
    subst h
    obtain ⟨hal, -⟩ := inv.runOut a ha
    have hdue : ∀ b ∈ l, dueTimeAt (free sys.mem.heap (some a)) b = dueTimeAt sys.mem.heap b :=
      fun b hb => dueTimeAt_free (fun e => hal (e ▸ hb))
    refine ⟨⟨l, ?_⟩, rfl⟩
    refine ⟨wf_free inv.wf (fun b hb => by cases hb; exact hal), ?_, ?_, ?_, inv.past,
      inv.order, inv.runNodup.erase a, ?_⟩
    · refine List.Pairwise.imp_of_mem (fun {x y} hx hy hxy => ?_) inv.sorted
      show dueTimeAt (free sys.mem.heap (some a)) x ≤ dueTimeAt (free sys.mem.heap (some a)) y
      rw [hdue x hx, hdue y hy]; exact hxy
    · intro b hb
      show fitsInt (dueTimeAt (free sys.mem.heap (some a)) b)
      rw [hdue b hb]; exact inv.fits b hb
    · intro b hb j hj
      show dueTime j ≤ dueTimeAt (free sys.mem.heap (some a)) b
      rw [hdue b hb]; exact inv.later b hb j hj
    · intro c hc
      have hc2 := (List.Nodup.mem_erase_iff inv.runNodup).1 hc
      obtain ⟨hcl, hcal⟩ := inv.runOut c hc2.2
      refine ⟨hcl, ?_⟩
      show free sys.mem.heap (some a) c ≠ none
      have : free sys.mem.heap (some a) c = sys.mem.heap c := by simp [free, hc2.1]
      rw [this]; exact hcal
  · rw [if_neg ha] at h
    cases h

theorem sysInv_tick {fuel : Nat} {sys sys1 : System} {l : List Nat} {d : Nat}
    (inv : SysInv sys l) (h : sys.step fuel (.tick d) = .ok sys1) :
    (∃ l1, SysInv sys1 l1) ∧ sys1.clock = sys.clock + d := by
  simp only [System.step, pure, Except.pure, Except.ok.injEq] at h
  subst h
  refine ⟨⟨l, ⟨inv.wf, inv.sorted, inv.fits, inv.later, ?_, inv.order, inv.runNodup,
    inv.runOut⟩⟩, rfl⟩
  intro j hj
  show dueTime j ≤ sys.clock + d
  have := inv.past j hj
  omega

theorem sysInv_run {fuel : Nat} (es : List Event) :
    ∀ {sys sys1 : System} {l : List Nat}, SysInv sys l → submitsFit sys.clock es →
      System.run fuel es sys = .ok sys1 → ∃ l1, SysInv sys1 l1 := by
  induction es with
  | nil =>
    intro sys sys1 l inv _ h
    simp only [System.run, Except.ok.injEq] at h
    subst h
    exact ⟨l, inv⟩
  | cons e es ih =>
    intro sys sys1 l inv hfit h
    simp only [System.run] at h
    obtain ⟨sys2, hstep, hrun⟩ := bind_eq_ok h
    clear h
    cases e with
    | submit a inp =>
      obtain ⟨hpos, hf, hrest⟩ := hfit
      obtain ⟨⟨l2, inv2⟩, hclock⟩ := sysInv_submit inv hpos hf hstep
      exact ih inv2 (by rw [hclock]; exact hrest) hrun
    | cancel =>
      obtain ⟨⟨l2, inv2⟩, hclock⟩ := sysInv_cancel inv hstep
      exact ih inv2 (by rw [hclock]; exact hfit) hrun
    | dispatch =>
      obtain ⟨⟨l2, inv2⟩, hclock⟩ := sysInv_dispatch inv hstep
      exact ih inv2 (by rw [hclock]; exact hfit) hrun
    | finish a =>
      obtain ⟨⟨l2, inv2⟩, hclock⟩ := sysInv_finish inv hstep
      exact ih inv2 (by rw [hclock]; exact hfit) hrun
    | tick d =>
      obtain ⟨⟨l2, inv2⟩, hclock⟩ := sysInv_tick inv hstep
      exact ih inv2 (by rw [hclock]; exact hfit) hrun

/-- In every run of the program in which each submitted job has a positive
start time and a due time that an `int` holds, the jobs are handed to
executors in non-decreasing order of due time. -/
theorem dispatch_order_of_fits (fuel : Nat) (t0 : Int) (es : List Event) (sys : System)
    (hfit : submitsFit t0 es) (h : System.run fuel es (System.init t0) = .ok sys) :
    sys.started.Pairwise (fun j k => dueTime j ≤ dueTime k) := by
  obtain ⟨l, inv⟩ := sysInv_run es (sysInv_init t0) hfit h
  exact inv.order

theorem dispatch_order_of_fits_example :
    submitsFit 1700000000 [.submit 1 ⟨1, ["a"], 5⟩, .submit 2 ⟨1, ["b"], 3⟩, .tick 5,
      .dispatch, .dispatch] ∧
    ∃ sys, System.run 2 [.submit 1 ⟨1, ["a"], 5⟩, .submit 2 ⟨1, ["b"], 3⟩, .tick 5,
        .dispatch, .dispatch] (System.init 1700000000) = .ok sys ∧
      sys.started.map dueTime = [1700000003, 1700000005] ∧
      sys.started.Pairwise (fun j k => dueTime j ≤ dueTime k) :=
  have hfit : submitsFit 1700000000 [.submit 1 ⟨1, ["a"], 5⟩, .submit 2 ⟨1, ["b"], 3⟩,
      .tick 5, .dispatch, .dispatch] := by
    simp only [submitsFit]
    decide
  ⟨hfit, _, rfl, rfl, dispatch_order_of_fits 2 1700000000 _ _ hfit rfl⟩

/-! ## The backward traversal -/

theorem backwardFrom_seg {h : Heap} (l : List Nat) :
    ∀ {pv nx : Ptr}, Seg h pv l nx → backwardFrom h l.length (lastOr l pv) = .ok l.reverse := by
  induction l using List.reverseRecOn with
  | nil => intro pv nx _; rfl
  | append_singleton m b ih =>
    intro pv nx hseg
    rw [seg_append, seg_cons] at hseg
    obtain ⟨hm, j, hj, hp, -, -⟩ := hseg
    rw [lastOr_append_singleton, List.length_append, List.length_singleton, backwardFrom]
    simp only [hj, hp]
    rw [ih hm, List.reverse_concat]
    rfl

theorem printBackward_wf {s : Mem} {l : List Nat} (hwf : WF s l) :
    printBackward s = .ok l.reverse := by
  obtain ⟨-, hseg, -, hnum, hlast⟩ := hwf
  unfold printBackward
  rw [hnum, Int.toNat_ofNat]
  cases l with
  | nil => rfl
  | cons a rest =>
    have := backwardFrom_seg (a :: rest) hseg
    rw [hlast (List.cons_ne_nil _ _)]
    have hh : (a :: rest).getLast? = lastOr (a :: rest) none := by
      simp only [lastOr]
      rw [List.getLast?_eq_getLast _ (List.cons_ne_nil a rest)]
    rw [hh]
    exact this

/-! ## Where `insertOrdered` puts the new job -/

theorem takeWhile_dropWhile_of_split {P : Nat → Bool} (l1 l2 : List Nat)
    (h1 : ∀ a ∈ l1, P a = true) (h2 : ∀ a, l2.head? = some a → P a = false) :
    (l1 ++ l2).takeWhile P = l1 ∧ (l1 ++ l2).dropWhile P = l2 := by
  induction l1 with
  | nil =>
    cases l2 with
    | nil => exact ⟨rfl, rfl⟩
    | cons b t =>
      have hb := h2 b rfl
      simp [List.takeWhile_cons, List.dropWhile_cons, hb]
  | cons a rest ih =>
    have ha := h1 a (List.mem_cons_self _ _)
    obtain ⟨e1, e2⟩ := ih (fun b hb => h1 b (List.mem_cons_of_mem _ hb))
    simp only [List.cons_append, List.takeWhile_cons, List.dropWhile_cons, ha, if_true]
    exact ⟨by rw [e1], e2⟩

theorem takeWhile_dropWhile_congr {P Q : Nat → Bool} (l : List Nat)
    (h : ∀ a ∈ l, P a = Q a) : l.takeWhile P = l.takeWhile Q ∧ l.dropWhile P = l.dropWhile Q := by
  induction l with
  | nil => exact ⟨rfl, rfl⟩
  | cons a rest ih =>
    have ha := h a (List.mem_cons_self _ _)
    obtain ⟨e1, e2⟩ := ih (fun b hb => h b (List.mem_cons_of_mem _ hb))
    simp only [List.takeWhile_cons, List.dropWhile_cons, ha, e1, e2]
    exact ⟨trivial, trivial⟩

/-- With fuel for `numOfJobs` evaluations of the loop condition and a new job
whose `int` value is not the first queued job's, `insertOrdered` completes and
the queue becomes the longest run of leading jobs of smaller `int` value, the
new job, and the other jobs. -/
theorem insertOrdered_takeWhile {s : Mem} {l : List Nat} {p : Nat} (fuel : Nat)
    (hwf : WF s l) (hf : Fresh s.heap l p) (hfuel : l.length ≤ fuel)
    (hne : ∀ hd, l.head? = some hd → intValueAt s.heap p ≠ intValueAt s.heap hd) :
    ∃ s1, insertOrdered fuel s (some p) = .ok s1 ∧
      WF s1 (l.takeWhile (fun a => decide (intValueAt s.heap a < intValueAt s.heap p)) ++
        p :: l.dropWhile (fun a => decide (intValueAt s.heap a < intValueAt s.heap p))) ∧
      SameJobs s.heap s1.heap := by
  rcases insertOrdered_cases fuel hwf hf with ⟨-, hlt⟩ | ⟨-, hd, hhd, heq⟩ |
      ⟨s1, l1, l2, hok, hl, hwf1, hsmall, hbig, -, hsame⟩
  · exact absurd hfuel (not_le.2 hlt)
  · exact absurd heq (hne hd hhd)
  · refine ⟨s1, hok, ?_, hsame⟩
    obtain ⟨e1, e2⟩ := takeWhile_dropWhile_of_split
      (P := fun a => decide (intValueAt s.heap a < intValueAt s.heap p)) l1 l2
      (fun a ha => decide_eq_true (hsmall a ha))
      (fun a ha => decide_eq_false (not_lt.2 (hbig a ha)))
    rw [hl, e1, e2]
    exact hwf1

/-- The same in terms of due times, when the due times of the queued jobs and
of the new job are values an `int` holds. -/
theorem insertOrdered_takeWhile_of_fits {s : Mem} {l : List Nat} {p : Nat} (fuel : Nat)
    (hwf : WF s l) (hf : Fresh s.heap l p) (hfuel : l.length ≤ fuel)
    (hfit : ∀ a ∈ l, fitsInt (dueTimeAt s.heap a)) (hfitp : fitsInt (dueTimeAt s.heap p))
    (hne : ∀ hd, l.head? = some hd → dueTimeAt s.heap p ≠ dueTimeAt s.heap hd) :
    ∃ s1, insertOrdered fuel s (some p) = .ok s1 ∧
      printForward s1 = .ok
        (l.takeWhile (fun a => decide (dueTimeAt s.heap a < dueTimeAt s.heap p)) ++
          p :: l.dropWhile (fun a => decide (dueTimeAt s.heap a < dueTimeAt s.heap p))) ∧
      SameJobs s.heap s1.heap := by
  have hv : ∀ a, fitsInt (dueTimeAt s.heap a) → intValueAt s.heap a = dueTimeAt s.heap a :=
    fun a ha => by rw [intValueAt_eq_toInt, toInt_of_fitsInt ha]
  have hne1 : ∀ hd, l.head? = some hd → intValueAt s.heap p ≠ intValueAt s.heap hd := by
    intro hd hhd
    rw [hv p hfitp, hv hd (hfit hd (List.mem_of_mem_head? hhd))]
    exact hne hd hhd
  obtain ⟨s1, hok, hwf1, hsame⟩ := insertOrdered_takeWhile fuel hwf hf hfuel hne1
  obtain ⟨e1, e2⟩ := takeWhile_dropWhile_congr
    (P := fun a => decide (intValueAt s.heap a < intValueAt s.heap p))
    (Q := fun a => decide (dueTimeAt s.heap a < dueTimeAt s.heap p)) l
    (fun a ha => by simp only [hv a (hfit a ha), hv p hfitp])
  rw [e1, e2] at hwf1
  exact ⟨s1, hok, printForward_wf hwf1, hsame⟩

/-- While both due times are values an `int` holds, `insertOrdered` compares
them as the dispatcher does. -/
theorem intValue_lt_iff_of_fits {j k : Job} (hj : fitsInt (dueTime j)) (hk : fitsInt (dueTime k)) :
    (intValue j < intValue k ↔ dueTime j < dueTime k) ∧
      (intValue j ≤ intValue k ↔ dueTime j ≤ dueTime k) := by
  have ej : intValue j = dueTime j := toInt_of_fitsInt hj
  have ek : intValue k = dueTime k := toInt_of_fitsInt hk
  rw [ej, ek]
  exact ⟨Iff.rfl, Iff.rfl⟩

/-! ## Submitting, cancelling and executing -/

/-- A completed `insertOrdered` step leaves at the new address the job
`createJob` built, up to its links. -/
theorem step_insertOrdered_payload {fuel : Nat} {s s1 : Mem} {l : List Nat} {p : Nat}
    {inp : Submission} {now : Int} {r : Option Ptr}
    (hwf : WF s l) (h : step fuel s (.insertOrdered p inp now) = .ok (s1, r)) :
    (s1.heap p).map payload = some (createJob inp now) := by
  simp only [step] at h
  obtain ⟨s0, hal, h1⟩ := bind_eq_ok h
  clear h
  obtain ⟨s2, hins, h⟩ := bind_eq_ok h1
  clear h1
  obtain ⟨hfree, rfl⟩ := alloc_eq_ok hal
  obtain ⟨-, hwf0, hfresh⟩ := alloc_spec hwf hfree inp now
  simp only [pure, Except.pure, Except.ok.injEq, Prod.mk.injEq] at h
  obtain ⟨rfl, rfl⟩ := h
  rcases insertOrdered_cases fuel hwf0 hfresh with ⟨he, -⟩ | ⟨he, -⟩ |
      ⟨s3, l1, l2, hok, -, -, -, -, -, hsame⟩
  · rw [he] at hins; cases hins
  · rw [he] at hins; cases hins
  · rw [hok] at hins
    cases hins
    have h1 : Option.map payload (s2.heap p) =
        Option.map payload (store s.heap p (createJob inp now) p) := hsame p
    rw [h1, store_same]
    rfl

/-- On a list whose `numOfJobs` is 0 the `-` branch of `main` prints the time
and `Program Name: ` and then reads through the `NULL` pointer that
`deleteFirstJob` returned. -/
theorem mainDelete_empty {s : Mem} (curSysTime : Int) (h : s.list.numOfJobs = 0) :
    mainDelete s curSysTime =
      (["Current system time: " ++ toString curSysTime ++ "\n", "Program Name: "],
        .error .nullDeref) := by
  simp [mainDelete, deleteFirstJob, h, printJobInfo, deref]

/-- On a queue that is not empty the `-` branch of `main` completes: it prints
the time and the first job's information, removes that job from the queue and
frees it. -/
theorem mainDelete_nonempty {s : Mem} {a : Nat} {rest : List Nat} {j : Job} (curSysTime : Int)
    (hwf : WF s (a :: rest)) (ha : s.heap a = some j)
    (hpar : j.numOfParameters.toNat ≤ j.command.length) :
    ∃ s1, mainDelete s curSysTime =
        (["Current system time: " ++ toString curSysTime ++ "\n", "Program Name: "] ++
          (j.command.take j.numOfParameters.toNat).map (fun c => c ++ " ") ++
          ["\n", "Submission Time: " ++ toString j.submissionTime ++ "\n",
            "Start Time: " ++ toString j.startTime ++ "\n"], .ok s1) ∧
      WF s1 rest ∧ s1.heap a = none := by
  obtain ⟨s2, hdel, hwf2, hsame, -⟩ := deleteFirstJob_spec hwf
  have hp := hsame a
  rw [ha] at hp
  cases h2 : s2.heap a with
  | none => rw [h2] at hp; cases hp
  | some j2 =>
    rw [h2] at hp
    simp only [Option.map_some', Option.some.injEq] at hp
    have hc : j2.command = j.command := congrArg (fun x => x.command) hp
    have hn : j2.numOfParameters = j.numOfParameters :=
      congrArg (fun x => x.numOfParameters) hp
    have hs : j2.submissionTime = j.submissionTime := congrArg (fun x => x.submissionTime) hp
    have ht : j2.startTime = j.startTime := congrArg (fun x => x.startTime) hp
    have hnot : a ∉ rest := (List.nodup_cons.1 hwf.1).1
    refine ⟨⟨free s2.heap (some a), s2.list⟩, ?_, wf_free hwf2 (fun b hb => by cases hb; exact hnot),
      by simp [free]⟩
    simp [mainDelete, hdel, printJobInfo, deref, h2, hc, hn, hs, ht, hpar]

/-- With at most 4 parameters `prepareCmdParam` fills the array of `execute`
with the pointers to the parameters, in order, and `NULL` after them. -/
theorem executeChild_of_le_four {h : Heap} {a : Nat} {j : Job} (ha : h a = some j)
    (h0 : 0 ≤ j.numOfParameters) (h4 : j.numOfParameters ≤ 4) :
    executeChild h (some a) =
      .ok ((List.range j.numOfParameters.toNat).map ArgSlot.param ++
        ArgSlot.null :: List.replicate (4 - j.numOfParameters.toNat) ArgSlot.uninit) := by
  obtain ⟨n, hn⟩ := Int.eq_ofNat_of_zero_le h0
  have hn4 : n ≤ 4 := by omega
  have hneg : ¬ j.numOfParameters < 0 := not_lt.2 h0
  unfold executeChild prepareCmdParam
  rw [deref_ok ha, bind_ok]
  simp only [hneg, if_false, hn, Int.toNat_ofNat]
  interval_cases n <;> rfl

/-- With 5 parameters or more `prepareCmdParam` writes outside the array of
`execute`. -/
theorem executeChild_of_five_le {h : Heap} {a : Nat} {j : Job} (ha : h a = some j)
    (h5 : 5 ≤ j.numOfParameters) : executeChild h (some a) = .error .outOfBounds := by
  obtain ⟨n, hn⟩ := Int.eq_ofNat_of_zero_le (le_trans (by decide) h5)
  have hn5 : 5 ≤ n := by omega
  obtain ⟨m, rfl⟩ : ∃ m, n = m + 5 := ⟨n - 5, by omega⟩
  have hneg : ¬ j.numOfParameters < 0 := by omega
  unfold executeChild prepareCmdParam
  rw [deref_ok ha, bind_ok]
  simp only [hneg, if_false, hn, Int.toNat_ofNat]
  cases m with
  | zero => rfl
  | succ k => rfl

/-- With fuel for `numOfJobs` evaluations of the loop condition, an admissible
call completes. -/
theorem step_admissible_ok {fuel : Nat} {s : Mem} {l : List Nat} {op : Op}
    (hwf : WF s l) (hfuel : l.length ≤ fuel) (hadm : op.admissibleAt s = true) :
    ∃ s1 r, step fuel s op = .ok (s1, r) := by
  cases op with
  | insertOrdered a inp now =>
    simp only [Op.admissibleAt, Bool.and_eq_true, Option.isNone_iff_eq_none] at hadm
    obtain ⟨hfree, hne⟩ := hadm
    have hfirst : s.list.firstJob = l.head? := hwf.2.2.1
    obtain ⟨s1, hok⟩ := step_insertOrdered_ok inp now hwf hfree hfuel (fun hd hhd => by
      rw [hfirst, hhd] at hne
      simpa using hne)
    exact ⟨s1, none, hok⟩
  | appendJob a inp now =>
    simp only [Op.admissibleAt, Option.isNone_iff_eq_none] at hadm
    obtain ⟨hal, hwf0, hfresh⟩ := alloc_spec hwf hadm inp now
    obtain ⟨s1, hok, -, -⟩ := appendJob_spec hwf0 hfresh
    refine ⟨s1, none, ?_⟩
    simp only [step]
    rw [hal, bind_ok, hok]
    rfl
  | deleteFirstJob release =>
    cases l with
    | nil =>
      have hn0 : s.list.numOfJobs = 0 := by simpa using hwf.2.2.2.1
      have hdel : deleteFirstJob s = .ok (s, none) := by simp [deleteFirstJob, hn0]
      simp only [step]
      rw [hdel, bind_ok]
      exact ⟨_, _, rfl⟩
    | cons a rest =>
      obtain ⟨s3, hok, -, -, -⟩ := deleteFirstJob_spec hwf
      simp only [step]
      rw [hok, bind_ok]
      exact ⟨_, _, rfl⟩

/-- With fuel for the longest queue the calls can build, a sequence of
admissible calls completes. -/
theorem run_admissible_ok {fuel : Nat} (ops : List Op) :
    ∀ {s : Mem} {l : List Nat}, WF s l → l.length + ops.length ≤ fuel →
      admissible fuel ops s = true → ∃ s1 rets, run fuel ops s = .ok (s1, rets) := by
  induction ops with
  | nil =>
    intro s l _ _ _
    exact ⟨s, [], rfl⟩
  | cons op ops ih =>
    intro s l hwf hfuel hadm
    simp only [List.length_cons] at hfuel
    simp only [admissible, Bool.and_eq_true] at hadm
    obtain ⟨hop, hrest⟩ := hadm
    have hl : l.length ≤ fuel := by omega
    obtain ⟨s1, r, hstep⟩ := step_admissible_ok hwf hl hop
    rw [hstep] at hrest
    obtain ⟨l1, hwf1, hlen, -⟩ := step_spec hwf hstep
    have hle : l1.length ≤ l.length + 1 := by
      have h1 : (l1.length : Int) ≤ l.length + 1 := by
        rw [hlen]
        have h2 : (0 : Int) ≤ ((r.toList.filter Option.isSome).length : Int) :=
          Int.natCast_nonneg _
        split_ifs <;> omega
      exact_mod_cast h1
    obtain ⟨s2, rets, hrun⟩ := ih hwf1 (by omega) hrest
    refine ⟨s2, r.toList ++ rets, ?_⟩
    simp only [run]
    rw [hstep, bind_ok, hrun]
    rfl

/-! ## The claims -/

/-- C1 (the code departs from the claim).  Two `insertOrdered` calls from the
empty list, with jobs submitted at clock value 1700000000 with start times 1
and 1000000000: the second job's due time 2700000000 does not fit an `int`, its
`insertValue` is negative, and it is linked in front of the first.  The forward
traversal visits the job due at 2700000000 before the job due at 1700000001, so
it is not in non-decreasing due time. -/
theorem insertOrdered_int_wrap_breaks_order :
    ∃ s, run 2 [.insertOrdered 1 ⟨1, ["a"], 1⟩ 1700000000,
                .insertOrdered 2 ⟨1, ["b"], 1000000000⟩ 1700000000] createList = .ok (s, []) ∧
      printForward s = .ok [2, 1] ∧
      dueTimeAt s.heap 2 = 2700000000 ∧ dueTimeAt s.heap 1 = 1700000001 ∧
      intValueAt s.heap 2 = -1594967296 ∧
      ¬ SortedDue s.heap [2, 1] :=
  ⟨_, rfl, rfl, rfl, rfl, rfl, by decide⟩

/-- C2 (the claim as stated fails).  Jobs due at 10, 20 and 20 are inserted in
this order at the addresses 1, 2 and 3: the job at 3, inserted after the job at
2 and with the same due time, is visited before it. -/
theorem insertOrdered_not_fifo :
    ∃ s, run 3 [.insertOrdered 1 ⟨1, ["a"], 10⟩ 0, .insertOrdered 2 ⟨1, ["b"], 20⟩ 0,
                .insertOrdered 3 ⟨1, ["c"], 20⟩ 0] createList = .ok (s, []) ∧
      printForward s = .ok [1, 3, 2] ∧
      dueTimeAt s.heap 2 = 20 ∧ dueTimeAt s.heap 3 = 20 :=
  ⟨_, rfl, rfl, rfl, rfl⟩

/-- C2 (amended).  After a sequence of `insertOrdered` calls from
`createList` that does not fault, jobs with equal due time are visited by the
forward traversal `tr` in the reverse of the order in which they were inserted:
a job inserted later comes before every job inserted earlier with the same due
time.  And one more `insertOrdered`, of a fresh job whose `int` value differs
from the first queued job's and with fuel for `numOfJobs` evaluations of the
loop condition, completes, leaves the queued jobs in their order and puts the
new job before every queued job that has its due time. -/
theorem insertOrdered_lifo (fuel : Nat) (ops : List Op) (s : Mem) (rets : List Ptr)
    (hins : ∀ op ∈ ops, op.isInsertOrdered = true)
    (h : run fuel ops createList = .ok (s, rets)) :
    ∃ tr, printForward s = .ok tr ∧
      (∀ (i j a1 : Nat) (inp1 : Submission) (now1 : Int) (a2 : Nat) (inp2 : Submission)
          (now2 : Int), i < j →
        ops[i]? = some (Op.insertOrdered a1 inp1 now1) →
        ops[j]? = some (Op.insertOrdered a2 inp2 now2) →
        now1 + inp1.startTime = now2 + inp2.startTime → List.Sublist [a2, a1] tr) ∧
      (∀ (fuel1 p : Nat) (inp : Submission) (now : Int), s.heap p = none → tr.length ≤ fuel1 →
        (∀ hd, tr.head? = some hd → toInt (now + inp.startTime) ≠ intValueAt s.heap hd) →
        ∃ s1 l1 l2, step fuel1 s (.insertOrdered p inp now) = .ok (s1, none) ∧
          tr = l1 ++ l2 ∧ printForward s1 = .ok (l1 ++ p :: l2) ∧
          (∀ a ∈ tr, dueTimeAt s.heap a = now + inp.startTime → a ∈ l2)) := by
  obtain ⟨tr, hwf, -, -, -, hpairs⟩ := run_inserts_lifo ops hins wf_createList h
  refine ⟨tr, printForward_wf hwf, hpairs, ?_⟩
  intro fuel1 p inp now hfree hfuel hne
  obtain ⟨s1, hok⟩ := step_insertOrdered_ok inp now hwf hfree hfuel hne
  obtain ⟨l1, l2, hl, hwf1, -, -, -, -, -, hsmall, -⟩ := step_insertOrdered_spec hwf hok
  exact ⟨s1, l1, l2, hok, hl, printForward_wf hwf1, equal_due_after hl hsmall⟩

theorem insertOrdered_lifo_witness :
    ((∀ op ∈ threeJobsOps, op.isInsertOrdered = true) ∧
      run 3 threeJobsOps createList = .ok (threeJobs, [])) ∧
    ∃ tr, printForward threeJobs = .ok tr ∧
      (∀ (i j a1 : Nat) (inp1 : Submission) (now1 : Int) (a2 : Nat) (inp2 : Submission)
          (now2 : Int), i < j →
        threeJobsOps[i]? = some (Op.insertOrdered a1 inp1 now1) →
        threeJobsOps[j]? = some (Op.insertOrdered a2 inp2 now2) →
        now1 + inp1.startTime = now2 + inp2.startTime → List.Sublist [a2, a1] tr) ∧
      (∀ (fuel1 p : Nat) (inp : Submission) (now : Int), threeJobs.heap p = none →
        tr.length ≤ fuel1 →
        (∀ hd, tr.head? = some hd → toInt (now + inp.startTime) ≠ intValueAt threeJobs.heap hd) →
        ∃ s1 l1 l2, step fuel1 threeJobs (.insertOrdered p inp now) = .ok (s1, none) ∧
          tr = l1 ++ l2 ∧ printForward s1 = .ok (l1 ++ p :: l2) ∧
          (∀ a ∈ tr, dueTimeAt threeJobs.heap a = now + inp.startTime → a ∈ l2)) :=
  ⟨⟨by decide, rfl⟩, insertOrdered_lifo 3 threeJobsOps threeJobs [] (by decide) rfl⟩

/-- C3.  On a well-formed, sorted, non-empty queue `deleteFirstJob` returns
`firstJob`, whose due time is the smallest of the queued jobs; afterwards the
forward traversal is the old one without its first element, the returned job
is no longer in it, and the jobs themselves are unchanged. -/
theorem deleteFirstJob_removes_head (s : Mem) (l : List Nat)
    (hwf : WF s l) (hne : l ≠ []) (hsorted : SortedDue s.heap l) :
    ∃ a rest s1, l = a :: rest ∧ s.list.firstJob = some a ∧
      deleteFirstJob s = .ok (s1, some a) ∧
      (∀ b ∈ l, dueTimeAt s.heap a ≤ dueTimeAt s.heap b) ∧
      printForward s = .ok (a :: rest) ∧ printForward s1 = .ok rest ∧ a ∉ rest ∧
      SameJobs s.heap s1.heap := by
  cases l with
  | nil => exact absurd rfl hne
  | cons a rest =>
    obtain ⟨s1, hdel, hwf1, hsame, -⟩ := deleteFirstJob_spec hwf
    refine ⟨a, rest, s1, rfl, by simpa using hwf.2.2.1, hdel, ?_, printForward_wf hwf,
      printForward_wf hwf1, (List.nodup_cons.1 hwf.1).1, hsame⟩
    intro b hb
    rcases List.mem_cons.1 hb with rfl | hm
    · exact le_refl _
    · exact List.rel_of_pairwise_cons hsorted hm

theorem deleteFirstJob_removes_head_witness :
    (WF twoJobs [1, 2] ∧ [1, 2] ≠ [] ∧ SortedDue twoJobs.heap [1, 2]) ∧
    ∃ a rest s1, [1, 2] = a :: rest ∧ twoJobs.list.firstJob = some a ∧
      deleteFirstJob twoJobs = .ok (s1, some a) ∧
      (∀ b ∈ [1, 2], dueTimeAt twoJobs.heap a ≤ dueTimeAt twoJobs.heap b) ∧
      printForward twoJobs = .ok (a :: rest) ∧ printForward s1 = .ok rest ∧ a ∉ rest ∧
      SameJobs twoJobs.heap s1.heap :=
  ⟨⟨by decide, by decide, by decide⟩,
    deleteFirstJob_removes_head twoJobs [1, 2] (by decide) (by decide) (by decide)⟩

/-- C4.  On a list whose `numOfJobs` is 0, `deleteFirstJob` returns `NULL` and
leaves the state, hence `numOfJobs`, `firstJob` and `lastJob`, as it was. -/
theorem deleteFirstJob_empty (s : Mem) (h : s.list.numOfJobs = 0) :
    deleteFirstJob s = .ok (s, none) := by
  simp [deleteFirstJob, h]

theorem deleteFirstJob_empty_witness :
    createList.list.numOfJobs = 0 ∧ deleteFirstJob createList = .ok (createList, none) :=
  ⟨rfl, deleteFirstJob_empty createList rfl⟩

/-- C5 (the code departs from the claim).  After two `insertOrdered` calls from
`createList` with jobs that are both due at `10` the claim gives `numOfJobs = 2`;
the second call follows the `NULL` `prev` link of the first job inside
`insertBetween`, whatever the fuel, and leaves no list.  Away from that case the
count is as claimed: every sequence of admissible calls completes, given fuel
for the longest queue it can build, and after every sequence that completes
`numOfJobs` is the number of `insertOrdered` and `appendJob` calls minus the
number of `deleteFirstJob` calls that returned a job, and is not negative. -/
theorem numOfJobs_eq_inserts_sub_deletes :
    (equalDueOps.countP Op.isInsert = 2 ∧
      (∀ fuel, run (fuel + 1) equalDueOps createList = .error .nullDeref) ∧
      ∀ fuel s rets, run fuel equalDueOps createList ≠ .ok (s, rets)) ∧
    (∀ fuel ops, ops.length ≤ fuel → admissible fuel ops createList = true →
      ∃ s rets, run fuel ops createList = .ok (s, rets) ∧
        s.list.numOfJobs =
          (ops.countP Op.isInsert : Int) - ((rets.filter Option.isSome).length : Int) ∧
        0 ≤ s.list.numOfJobs ∧
        rets.length = ops.countP (fun op => !op.isInsert)) ∧
    (∀ fuel ops s rets, run fuel ops createList = .ok (s, rets) →
      s.list.numOfJobs =
          (ops.countP Op.isInsert : Int) - ((rets.filter Option.isSome).length : Int) ∧
        0 ≤ s.list.numOfJobs ∧
        rets.length = ops.countP (fun op => !op.isInsert)) := by
  have hcount : ∀ fuel ops s rets, run fuel ops createList = .ok (s, rets) →
      s.list.numOfJobs =
          (ops.countP Op.isInsert : Int) - ((rets.filter Option.isSome).length : Int) ∧
        0 ≤ s.list.numOfJobs ∧
        rets.length = ops.countP (fun op => !op.isInsert) := by
    intro fuel ops s rets h
    obtain ⟨l1, hwf1, hlen, hrets⟩ := run_spec wf_createList h
    refine ⟨?_, ?_, hrets⟩
    · rw [hwf1.2.2.2.1, hlen]; simp
    · rw [hwf1.2.2.2.1]; exact Int.natCast_nonneg _
  refine ⟨⟨rfl, fun _ => rfl, fun fuel s rets h => ?_⟩, fun fuel ops hfuel hadm => ?_, hcount⟩
  · cases fuel with
    | zero => cases h
    | succ n =>
      have h1 : run (n + 1) equalDueOps createList = .error .nullDeref := rfl
      rw [h1] at h
      cases h
  · obtain ⟨s, rets, hrun⟩ :=
      run_admissible_ok ops wf_createList (by simpa using hfuel) hadm
    exact ⟨s, rets, hrun, hcount fuel ops s rets hrun⟩

theorem numOfJobs_eq_inserts_sub_deletes_witness :
    (mixedOps.length ≤ 5 ∧ admissible 5 mixedOps createList = true) ∧
    ∃ s rets, run 5 mixedOps createList = .ok (s, rets) ∧
      s.list.numOfJobs =
        (mixedOps.countP Op.isInsert : Int) - ((rets.filter Option.isSome).length : Int) ∧
      0 ≤ s.list.numOfJobs ∧
      rets.length = mixedOps.countP (fun op => !op.isInsert) :=
  ⟨⟨by decide, rfl⟩, numOfJobs_eq_inserts_sub_deletes.2.1 5 mixedOps (by decide) rfl⟩

/-- C6.  In every state reached from `createList` by queue operations,
`numOfJobs` is the number of jobs on the chain that starts at `firstJob` and
follows `next` to `NULL`: the walk along the chain ends, at `NULL`, after
exactly `numOfJobs` jobs. -/
theorem numOfJobs_eq_chain_length (s : Mem) (h : Reachable s) :
    ∃ l, (∀ fuel, l.length ≤ fuel → chainFrom s.heap fuel s.list.firstJob = .ok l) ∧
      s.list.numOfJobs = l.length := by
  obtain ⟨fuel, ops, rets, hrun⟩ := h
  obtain ⟨l, hwf, -, -⟩ := run_spec wf_createList hrun
  refine ⟨l, fun f hf => ?_, hwf.2.2.2.1⟩
  have := chainFrom_seg f hwf.2.1 hf
  rw [hwf.2.2.1]
  have hh : l.head? = headOr l none := by cases l <;> rfl
  rw [hh]; exact this

theorem numOfJobs_eq_chain_length_witness :
    Reachable twoJobs ∧
    ∃ l, (∀ fuel, l.length ≤ fuel → chainFrom twoJobs.heap fuel twoJobs.list.firstJob = .ok l) ∧
      twoJobs.list.numOfJobs = l.length :=
  have hr : Reachable twoJobs := ⟨2, twoJobsOps, [], rfl⟩
  ⟨hr, numOfJobs_eq_chain_length twoJobs hr⟩

/-- C7 (the code departs from the claim).  After `insertOrdered` of one job and
`deleteFirstJob`, which returns it, `numOfJobs` is 0 and `firstJob` is `NULL`,
but `lastJob` still holds the address of the removed job, here already
freed. -/
theorem deleteFirstJob_leaves_lastJob :
    ∃ s, run 1 [.insertOrdered 1 ⟨1, ["a"], 10⟩ 0, .deleteFirstJob true] createList =
        .ok (s, [some 1]) ∧
      s.list.numOfJobs = 0 ∧ s.list.firstJob = none ∧ s.list.lastJob = some 1 ∧
      s.heap 1 = none :=
  ⟨_, rfl, rfl, rfl, rfl, rfl⟩

/-- C8 (the code departs from the claim).  On the queue holding one job due at
10, reached from `createList`, `insertOrdered` of a fresh job also due at 10
calls `insertBetween` with the first job as `ahead` and follows its `NULL`
`prev` link, whatever the fuel. -/
theorem insertOrdered_equal_to_first_faults :
    Reachable oneJob ∧ printForward oneJob = .ok [1] ∧ dueTimeAt oneJob.heap 1 = 10 ∧
    ∀ fuel, step (fuel + 1) oneJob (.insertOrdered 2 ⟨1, ["b"], 10⟩ 0) = .error .nullDeref :=
  ⟨⟨1, oneJobOps, [], rfl⟩, rfl, rfl, fun _ => rfl⟩

/-- C9.  On a well-formed queue, one iteration of the dispatcher at the clock
value `curSysTime` starts an executor exactly when the queue has a first job
whose due time `submissionTime + startTime` is at most `curSysTime`; the
pointer it hands over is then the first job, which is removed from the queue;
otherwise it sleeps and the state is unchanged. -/
theorem dispatch_spec (s : Mem) (l : List Nat) (curSysTime : Int) (hwf : WF s l) :
    ∃ s1 out, dispatch s curSysTime = .ok (s1, out) ∧
      ((∃ jobPtr, out = .execute jobPtr) ↔
        ∃ a, l.head? = some a ∧ dueTimeAt s.heap a ≤ curSysTime) ∧
      (∀ jobPtr, out = .execute jobPtr →
        ∃ a rest, l = a :: rest ∧ jobPtr = some a ∧ WF s1 rest ∧
          printForward s1 = .ok rest ∧ a ∉ rest ∧ SameJobs s.heap s1.heap) ∧
      (out = .sleep → s1 = s) :=
  dispatch_cases s l curSysTime hwf

theorem dispatch_spec_witness :
    WF twoJobs [1, 2] ∧
    ∃ s1 out, dispatch twoJobs 10 = .ok (s1, out) ∧
      ((∃ jobPtr, out = .execute jobPtr) ↔
        ∃ a, [1, 2].head? = some a ∧ dueTimeAt twoJobs.heap a ≤ 10) ∧
      (∀ jobPtr, out = .execute jobPtr →
        ∃ a rest, [1, 2] = a :: rest ∧ jobPtr = some a ∧ WF s1 rest ∧
          printForward s1 = .ok rest ∧ a ∉ rest ∧ SameJobs twoJobs.heap s1.heap) ∧
      (out = .sleep → s1 = twoJobs) :=
  ⟨by decide, dispatch_spec twoJobs [1, 2] 10 (by decide)⟩

/-- C10 (the code departs from the claim).  At clock value 1700000000 two jobs
are submitted, with start times 1 and 1000000000 (both positive); the clock
then advances by 1000000000 seconds and the dispatcher runs two iterations.
The job due at 2700000000, whose `int` value wrapped in `insertOrdered`, is
handed to an executor before the job due at 1700000001. -/
theorem dispatch_order_breaks_on_int_wrap :
    ∃ sys, System.run 2 [.submit 1 ⟨1, ["a"], 1⟩, .submit 2 ⟨1, ["b"], 1000000000⟩,
        .tick 1000000000, .dispatch, .dispatch] (System.init 1700000000) = .ok sys ∧
      sys.clock = 2700000000 ∧
      sys.started.map dueTime = [2700000000, 1700000001] ∧
      sys.started.map (fun j => j.startTime) = [1000000000, 1] :=
  ⟨_, rfl, rfl, rfl, rfl⟩

/-- C11 (the code departs from the claim).  On the empty queue `deleteFirstJob`
returns `NULL` and leaves the queue as it was, but the `-` branch of `main`
passes that `NULL` to `printJobInfo`, which prints `Program Name: ` and then
reads `jobPtr->numOfParameters` through it: the handler does not complete. -/
theorem mainDelete_on_empty_queue_faults :
    deleteFirstJob createList = .ok (createList, none) ∧
    mainDelete createList 1700000000 =
      (["Current system time: 1700000000\n", "Program Name: "], .error .nullDeref) :=
  ⟨rfl, rfl⟩

/-- C12 (the code departs from the claim).  `createJob` stores what it scans
unchecked.  On the empty queue at clock value 1700000000, a submit with
parameter count 0 and start delay -5 is not rejected: the job is built and
inserted, and `numOfJobs` becomes 1.  So is a submit with parameter count -1;
for that job `prepareCmdParam` later assigns `argv[-1]`, outside the array of
`execute`. -/
theorem submit_malformed_is_inserted :
    (∃ sys, (System.init 1700000000).step 1 (.submit 1 ⟨0, [], -5⟩) = .ok sys ∧
      sys.mem.list.numOfJobs = 1 ∧ printForward sys.mem = .ok [1] ∧
      sys.mem.heap 1 = some (createJob ⟨0, [], -5⟩ 1700000000)) ∧
    (∃ sys, (System.init 1700000000).step 1 (.submit 1 ⟨-1, [], 1⟩) = .ok sys ∧
      sys.mem.list.numOfJobs = 1 ∧ printForward sys.mem = .ok [1] ∧
      sys.mem.heap 1 = some (createJob ⟨-1, [], 1⟩ 1700000000) ∧
      executeChild sys.mem.heap (some 1) = .error .outOfBounds) :=
  ⟨⟨_, rfl, rfl, rfl, rfl⟩, ⟨_, rfl, rfl, rfl, rfl, rfl⟩⟩

/-- C13 (the claim as stated fails).  After `appendJob` of a job due at 10 and
`appendJob` of a job due at 5, `printBackward` visits the job due at 5 and then
the job due at 10: the reverse of the forward traversal, but in increasing due
time. -/
theorem printBackward_not_non_increasing :
    Reachable appended ∧ printForward appended = .ok [1, 2] ∧
    printBackward appended = .ok [2, 1] ∧
    dueTimeAt appended.heap 2 = 5 ∧ dueTimeAt appended.heap 1 = 10 :=
  ⟨⟨1, appendedOps, [], rfl⟩, rfl, rfl, rfl, rfl⟩

/-- C13 (amended).  In every state reached from `createList` by queue
operations, the sequence `printBackward` visits is the reverse of the sequence
`printForward` visits.  When the state was reached without `appendJob`, by
`insertOrdered` and `deleteFirstJob` calls only, and the due times of the queued
jobs are values an `int` holds, the backward sequence is in non-increasing due
time. -/
theorem printBackward_reverse (fuel : Nat) (ops : List Op) (s : Mem) (rets : List Ptr)
    (h : run fuel ops createList = .ok (s, rets)) :
    ∃ tr, printForward s = .ok tr ∧ printBackward s = .ok tr.reverse ∧
      ((∀ op ∈ ops, op.isAppendJob = false) → (∀ a ∈ tr, fitsInt (dueTimeAt s.heap a)) →
        tr.reverse.Pairwise (fun a b => dueTimeAt s.heap b ≤ dueTimeAt s.heap a)) := by
  obtain ⟨l, hwf, -, -⟩ := run_spec wf_createList h
  refine ⟨l, printForward_wf hwf, printBackward_wf hwf, fun hno hfit => ?_⟩
  obtain ⟨tr, hwf1, hs⟩ := run_noAppend_sortedInt ops hno wf_createList List.Pairwise.nil h
  have htr : tr = l := wf_unique hwf1 hwf
  subst htr
  rw [List.pairwise_reverse]
  exact sortedDue_of_sortedInt hfit hs

theorem printBackward_reverse_witness :
    (run 3 insertDeleteOps createList = .ok (insertDeleted, [some 1]) ∧
      (∀ op ∈ insertDeleteOps, op.isAppendJob = false) ∧
      printForward insertDeleted = .ok [3, 2] ∧
      ∀ a ∈ [3, 2], fitsInt (dueTimeAt insertDeleted.heap a)) ∧
    ∃ tr, printForward insertDeleted = .ok tr ∧ printBackward insertDeleted = .ok tr.reverse ∧
      ((∀ op ∈ insertDeleteOps, op.isAppendJob = false) →
        (∀ a ∈ tr, fitsInt (dueTimeAt insertDeleted.heap a)) →
        tr.reverse.Pairwise
          (fun a b => dueTimeAt insertDeleted.heap b ≤ dueTimeAt insertDeleted.heap a)) :=
  ⟨⟨rfl, by decide, rfl, by decide⟩,
    printBackward_reverse 3 insertDeleteOps insertDeleted [some 1] rfl⟩

/-- C14 (the claim as stated fails).  `execute` is entered at clock value 100
for the job `sleep 60`, whose child process runs for 60 seconds: `waitpid`
returns at 160, and the notice says `Current system time: 100`. -/
theorem execute_reports_stale_time :
    (execute sleepHeap (some 1) 100 60 0).finishedAt = 160 ∧
    (execute sleepHeap (some 1) 100 60 0).out =
      ["Job Deleted: \n", "Program Name: ", "sleep ", "60 ", "\n", "Submission Time: 100\n",
        "Start Time: 5\n", "Current system time: 100\n", "Status: 0\n\n"] ∧
    (execute sleepHeap (some 1) 100 60 0).out ≠ completionNotice sleepJob 160 0 :=
  ⟨rfl, rfl, by decide⟩

/-- C14 (amended).  For every job whose parameters are all set, the notice
`execute` prints holds the job's parameters, submission time and start delay,
as `Current system time` the clock value read when `execute` is entered, before
the child process is created, and the exit status; `waitpid` returns
`childTime` seconds later, and the job is freed. -/
theorem execute_reports_entry_time (h : Heap) (a : Nat) (j : Job) (clock : Int)
    (childTime : Nat) (status : Int) (ha : h a = some j)
    (hpar : j.numOfParameters.toNat ≤ j.command.length) :
    (execute h (some a) clock childTime status).out = completionNotice j clock status ∧
      (execute h (some a) clock childTime status).finishedAt = clock + childTime ∧
      (execute h (some a) clock childTime status).result = .ok (free h (some a)) := by
  simp [execute, printJobInfo, deref, ha, hpar, completionNotice]

theorem execute_reports_entry_time_witness :
    (sleepHeap 1 = some sleepJob ∧ sleepJob.numOfParameters.toNat ≤ sleepJob.command.length) ∧
    ((execute sleepHeap (some 1) 100 60 0).out = completionNotice sleepJob 100 0 ∧
      (execute sleepHeap (some 1) 100 60 0).finishedAt = 100 + (60 : Nat) ∧
      (execute sleepHeap (some 1) 100 60 0).result = .ok (free sleepHeap (some 1))) :=
  ⟨⟨rfl, by decide⟩, execute_reports_entry_time sleepHeap 1 sleepJob 100 60 0 rfl (by decide)⟩

/-- C15 (the code departs from the claim).  On the sorted queue of the jobs due
at 10 and 20, no queued job is due before a fresh job due at 10, so the claim
puts it first; `insertOrdered` follows the `NULL` `prev` link of the first job
instead.  And on the queue of one job due at 1700000001, a fresh job due at
2700000000 belongs after it; its `int` value wrapped, and `insertOrdered` puts
it first. -/
theorem insertOrdered_misses_position :
    (WF twoJobs [1, 2] ∧ SortedDue twoJobs.heap [1, 2] ∧
      [1, 2].takeWhile (fun a => decide (dueTimeAt twoJobs.heap a < 10)) = [] ∧
      ∀ fuel, step (fuel + 1) twoJobs (.insertOrdered 3 ⟨1, ["c"], 10⟩ 0) =
        .error .nullDeref) ∧
    (WF lateJob [1] ∧
      [1].takeWhile (fun a => decide (dueTimeAt lateJob.heap a < 2700000000)) = [1] ∧
      ∃ s1, step 1 lateJob (.insertOrdered 2 ⟨1, ["b"], 1000000000⟩ 1700000000) =
          .ok (s1, none) ∧
        printForward s1 = .ok [2, 1] ∧ dueTimeAt s1.heap 2 = 2700000000) :=
  ⟨⟨by decide, by decide, by decide, fun _ => rfl⟩,
    ⟨by decide, by decide, _, rfl, rfl, rfl⟩⟩

/-- C16.  On every well-formed queue with forward traversal `l`, also one
emptied by `deleteFirstJob` (whose `lastJob` still points to the job removed),
`appendJob` of a job fresh from `createJob` completes; the forward traversal
becomes `l ++ [p]`, `lastJob` is the new job and `numOfJobs` is one larger. -/
theorem appendJob_appends (fuel : Nat) (s : Mem) (l : List Nat) (p : Nat) (inp : Submission)
    (now : Int) (hwf : WF s l) (hfree : s.heap p = none) :
    ∃ s1, step fuel s (.appendJob p inp now) = .ok (s1, none) ∧
      printForward s = .ok l ∧ printForward s1 = .ok (l ++ [p]) ∧
      s1.list.lastJob = some p ∧ s1.list.numOfJobs = s.list.numOfJobs + 1 ∧
      (s1.heap p).map payload = some (createJob inp now) := by
  obtain ⟨hal, hwf0, hfresh⟩ := alloc_spec hwf hfree inp now
  obtain ⟨s1, hok, hwf1, hsame⟩ := appendJob_spec hwf0 hfresh
  refine ⟨s1, ?_, printForward_wf hwf, printForward_wf hwf1, ?_, ?_, ?_⟩
  · simp only [step]
    rw [hal, bind_ok, hok]
    rfl
  · rw [hwf1.2.2.2.2 (by simp)]
    simp
  · rw [hwf1.2.2.2.1, hwf.2.2.2.1]
    simp
  · have h1 : Option.map payload (s1.heap p) =
        Option.map payload (store s.heap p (createJob inp now) p) := hsame p
    rw [h1, store_same]
    rfl

theorem appendJob_appends_witness :
    (WF emptied [] ∧ emptied.heap 2 = none ∧ emptied.list.lastJob = some 1) ∧
    ∃ s1, step 0 emptied (.appendJob 2 ⟨1, ["b"], 20⟩ 5) = .ok (s1, none) ∧
      printForward emptied = .ok [] ∧ printForward s1 = .ok ([] ++ [2]) ∧
      s1.list.lastJob = some 2 ∧ s1.list.numOfJobs = emptied.list.numOfJobs + 1 ∧
      (s1.heap 2).map payload = some (createJob ⟨1, ["b"], 20⟩ 5) :=
  ⟨⟨by decide, rfl, rfl⟩, appendJob_appends 0 emptied [] 2 ⟨1, ["b"], 20⟩ 5 (by decide) rfl⟩

/-- C17 (the code departs from the claim).  For the jobs submitted at
1700000000 with start times 1 and 1000000000, the `int` values `insertOrdered`
compares are 1700000001 and -1594967296: the second is the smaller, while the
exact due times 1700000001 and 2700000000, which `dispatch` compares with the
clock, are in the other order. -/
theorem int_comparison_differs_from_long :
    intValue (createJob ⟨1, ["a"], 1⟩ 1700000000) = 1700000001 ∧
    intValue (createJob ⟨1, ["b"], 1000000000⟩ 1700000000) = -1594967296 ∧
    intValue (createJob ⟨1, ["b"], 1000000000⟩ 1700000000) <
      intValue (createJob ⟨1, ["a"], 1⟩ 1700000000) ∧
    dueTime (createJob ⟨1, ["a"], 1⟩ 1700000000) <
      dueTime (createJob ⟨1, ["b"], 1000000000⟩ 1700000000) := by
  decide

/-- C18 (the code departs from the claim).  For a job with five parameters the
loop of `prepareCmdParam` fills the five entries of the array of `execute`, and
the assignment `argv[5] = NULL` that follows is outside the array. -/
theorem prepareCmdParam_writes_past_argv :
    fiveParamJob.numOfParameters = 5 ∧
    fillArgs 5 0 (List.replicate 5 ArgSlot.uninit) =
      .ok [.param 0, .param 1, .param 2, .param 3, .param 4] ∧
    writeArg [.param 0, .param 1, .param 2, .param 3, .param 4] 5 .null =
      .error .outOfBounds ∧
    executeChild fiveParamHeap (some 1) = .error .outOfBounds :=
  ⟨rfl, rfl, rfl, rfl⟩

end JobDispatcher
